import Mathlib

/-!
# Verification of the npm-publish release orchestrator

Shallow embedding of the core logic of the `beepbop-labs/github-actions`
npm-publish workflow, translated from the TypeScript sources:

* `src/workflows/npm-publish/src/services/package-service.ts`
  (manifest loading / specifier validation, version calculator, change detector)
* `src/workflows/npm-publish/src/services/workspace-service.ts`
  (dependent expansion, batch scheduling, batched publishing)
* `src/unnamed/part_002` (the older "legacy" service variant)

External collaborators (registry gateway, git/GitHub gateway, subprocesses,
filesystem) are modelled as explicit parameters; operations performed against
them are recorded as explicit effect values where a claim depends on them.
-/

namespace NpmPublish

/-! ## Data model (`src/workflows/npm-publish/src/types/package.ts`) -/

/-- `T_Dependency.type`: `"workspace" | "npm"`. -/
inductive DepType where
  | workspace
  | npm
deriving DecidableEq, Repr

/-- `T_Dependency`: one declared reference from a package to another package. -/
structure Dependency where
  name : String
  type : DepType
  version : String
deriving DecidableEq, Repr

/-- The dependency-carrying fields of a parsed `package.json`
(the `json` field of `T_Package`, restricted to the keys the core logic reads
and writes: `version`, `dependencies`, `devDependencies`, `peerDependencies`). -/
structure PkgJson where
  version : String := ""
  dependencies : List (String × String) := []
  devDependencies : List (String × String) := []
  peerDependencies : List (String × String) := []
deriving DecidableEq, Repr

/-- `T_Package`: one publishable unit (the `path` field, used only to locate
files on disk, is omitted). -/
structure Package where
  name : String
  version : String := "0.0.0"
  tarballUrl : Option String := none
  access : String := "public"
  hasNpmTag : Bool := true
  dependencies : List Dependency := []
  json : PkgJson := {}
deriving DecidableEq, Repr

/-- The three dependency categories iterated by `publishBatches`
(`const types = ["dependencies", "devDependencies", "peerDependencies"]`). -/
inductive DepCat where
  | deps
  | dev
  | peer
deriving DecidableEq, Repr

def PkgJson.cat (j : PkgJson) : DepCat → List (String × String)
  | .deps => j.dependencies
  | .dev => j.devDependencies
  | .peer => j.peerDependencies

/-! ## Specifier validation (`package-service.ts`, `isValidVersion`) -/

/-- `p` is a prefix of `l`. -/
def isPrefixList (p l : List Char) : Bool := l.take p.length == p

/-- A start-anchored regex literal test (`/^lit/.test(s)`), or equivalently
`s.startsWith(lit)`. -/
def strStartsWith (s p : String) : Bool := isPrefixList p.toList s.toList

/-- `s.includes(sep)`: some suffix of `l` starts with `sep`. -/
def containsSubstrC (sep : List Char) : List Char → Bool
  | [] => sep.isEmpty
  | c :: rest => isPrefixList sep (c :: rest) || containsSubstrC sep rest

/-- Split a character list at every occurrence of the single character `sep`
(the behaviour of `String.prototype.split` / `splitOn` with a one-character
separator). -/
def splitOnCharAux (sep : Char) : List Char → List Char → List (List Char)
  | [], acc => [acc.reverse]
  | c :: rest, acc =>
    if c == sep then acc.reverse :: splitOnCharAux sep rest []
    else splitOnCharAux sep rest (c :: acc)

def splitOnChar (sep : Char) (l : List Char) : List (List Char) :=
  splitOnCharAux sep l []

/-- `parseInt` on an all-digit character run (most significant digit first). -/
def charsToNat (l : List Char) : Nat :=
  l.foldl (fun acc c => acc * 10 + (c.toNat - '0'.toNat)) 0

/-- JS `\s` (whitespace class), restricted to the ASCII whitespace characters. -/
def isJsWs (c : Char) : Bool :=
  c == ' ' || c == '\t' || c == '\n' || c == '\r' || c == '\x0b' || c == '\x0c'

/-- `s.trim()`: strip leading and trailing whitespace. -/
def jsTrim (s : String) : String :=
  String.mk (((s.toList.dropWhile isJsWs).reverse.dropWhile isJsWs).reverse)

/-- `version.replace(/\s+/g, "")`: remove every whitespace character. -/
def stripWs (s : String) : String := String.mk (s.toList.filter (fun c => !isJsWs c))

/-- `/^(file|link|git|http|https):/.test(version)`: the specifier is anchored to
a protocol (local file, link, source-control URL, or network URL). -/
def protocolTest (s : String) : Bool :=
  strStartsWith s "file:" || strStartsWith s "link:" || strStartsWith s "git:" ||
    strStartsWith s "http:" || strStartsWith s "https:"

/-- `/^(latest|stable|beta|alpha|next|canary|rc)$/`: accepted dist-tag keywords. -/
def distTagKeywords : List String :=
  ["latest", "stable", "beta", "alpha", "next", "canary", "rc"]

/-- The character class `[><=^~]` of the semver-range pattern. -/
def isRangeOp (c : Char) : Bool :=
  c == '>' || c == '<' || c == '=' || c == '^' || c == '~'

/-- `semverRangePattern.test (version.replace(/\s+/g, ""))` where

`semverRangePattern = /^[><=^~]*\s*[0-9]+(\.[0-9]+|\.x|\.\*)?(\.[0-9]+|\.x|\.\*)?(\s*[><=^~]*\s*[0-9]+(\.[0-9]+|\.x|\.\*)?(\.[0-9]+|\.x|\.\*)?)*/`

The pattern is anchored only at the start and every component after
`[><=^~]*\s*[0-9]+` is optional or starred, and `.test` succeeds on any match
of a prefix.  On a whitespace-free string (`\s*` can only match the empty
string) the test therefore succeeds exactly when the string starts with zero
or more range-operator characters followed by a digit: the digit position `k`
of any witness match is preceded only by class characters, and since a digit
is not a class character the only candidate is the end of the maximal leading
run of class characters. -/
def semverRangeTest (s : String) : Bool :=
  match s.toList.dropWhile isRangeOp with
  | [] => false
  | c :: _ => c.isDigit

/-- The character class `[a-zA-Z0-9.-]` of `prereleasePattern`. -/
def isIdentChar (c : Char) : Bool :=
  ('a' ≤ c && c ≤ 'z') || ('A' ≤ c && c ≤ 'Z') || c.isDigit || c == '.' || c == '-'

/-- Consume one or more `[a-zA-Z0-9.-]` characters; `none` if there are none. -/
def identTail (l : List Char) : Option (List Char) :=
  let t := l.takeWhile isIdentChar
  if t.isEmpty then none else some (l.drop t.length)

/-- Match the `(-[a-zA-Z0-9.-]+)?(\+[a-zA-Z0-9.-]+)?$` tail of
`prereleasePattern`.  Both identifier classes exclude `+`, so maximal munch is
exact here. -/
def prereleaseTail (l : List Char) : Bool :=
  match l with
  | [] => true
  | '-' :: r =>
    match identTail r with
    | none => false
    | some [] => true
    | some ('+' :: r3) =>
      match identTail r3 with
      | some [] => true
      | _ => false
    | some _ => false
  | '+' :: r =>
    match identTail r with
    | some [] => true
    | _ => false
  | _ => false

/-- `prereleasePattern = /^[0-9]+(\.[0-9]+)*(\.[0-9]+)*(-[a-zA-Z0-9.-]+)?(\+[a-zA-Z0-9.-]+)?$/`
(fully anchored).  The leading `[0-9]+(\.[0-9]+)*` part matches exactly the
maximal run of digits-and-dots, provided that run splits on `.` into nonempty
all-digit components (a prerelease part must start with `-`, not `.`, so no
backtracking into that run can ever help). -/
def prereleaseTest (s : String) : Bool :=
  let l := s.toList
  let core := l.takeWhile (fun c => c.isDigit || c == '.')
  let comps := splitOnChar '.' core
  comps.all (fun t => !t.isEmpty && t.all Char.isDigit) &&
    prereleaseTail (l.drop core.length)

/-- `isValidVersion` (`package-service.ts`, lines 89-114), branch for branch. -/
def isValidVersion (version : String) : Bool :=
  if protocolTest version then false
  else if strStartsWith version "workspace:" then true
  else if distTagKeywords.contains version then true
  else if version == "*" then true
  else if semverRangeTest (stripWs version) then true
  else prereleaseTest version

/-! ### Spec-side comparator for the range pattern

The claim about the missing end anchor is stated against the same range
pattern *with* a `$` anchor added. -/

/-- One `(\.[0-9]+|\.x|\.\*)` group; the three alternatives are distinguished
by their first character after the dot. -/
def numXComp (l : List Char) : Option (List Char) :=
  match l with
  | '.' :: 'x' :: r => some r
  | '.' :: '*' :: r => some r
  | '.' :: c :: r => if c.isDigit then some (r.dropWhile Char.isDigit) else none
  | _ => none

/-- One `[><=^~]*[0-9]+(\.[0-9]+|\.x|\.\*)?(\.[0-9]+|\.x|\.\*)?` component
(whitespace already stripped); returns the unconsumed remainder. -/
def parseComp (l : List Char) : Option (List Char) :=
  let afterOps := l.dropWhile isRangeOp
  match afterOps with
  | c :: r =>
    if c.isDigit then
      let rest0 := r.dropWhile Char.isDigit
      let rest1 := match numXComp rest0 with | some r1 => r1 | none => rest0
      let rest2 := match numXComp rest1 with | some r2 => r2 | none => rest1
      some rest2
    else none
  | [] => none

/-- Iterate the starred trailing component group; `fuel` bounds the number of
iterations (each successful `parseComp` consumes at least one character, so a
fuel of the list length is always sufficient). -/
def rangeStar : Nat → List Char → Bool
  | _, [] => true
  | 0, _ => false
  | fuel + 1, l =>
    match parseComp l with
    | some r => rangeStar fuel r
    | none => false

/-- Modelled from the spec: the code's `semverRangePattern` as it was evidently
intended, anchored at *both* ends (`^...$`), deciding "this whole specifier is
an exact or ranged semantic version in the pattern's dialect". -/
def semverRangeAnchoredTest (s : String) : Bool :=
  let l := (stripWs s).toList
  match parseComp l with
  | some r => rangeStar l.length r
  | none => false

/-! ## Manifest loading (`package-service.ts`, `loadPackage`) -/

/-- The fields of the parsed root object of one package's `package.json` that
`loadPackage` reads. -/
structure RawManifest where
  name : Option String := none
  version : String := ""
  dependencies : List (String × String) := []
  devDependencies : List (String × String) := []
  peerDependencies : List (String × String) := []
  npmTag : Bool := false
  isPrivate : Bool := false
deriving DecidableEq, Repr

/-- JS object-spread insertion: a later entry for an existing key overwrites
the value in place (keeping the key's original position); a new key is
appended. -/
def jsSpreadInsert (m : List (String × String)) (kv : String × String) :
    List (String × String) :=
  if m.any (fun p => p.1 == kv.1) then
    m.map (fun p => if p.1 == kv.1 then (p.1, kv.2) else p)
  else m ++ [kv]

/-- `{ ...dependencies, ...devDependencies, ...peerDependencies }`. -/
def jsMerge (ms : List (List (String × String))) : List (String × String) :=
  ms.foldl (fun acc m => m.foldl jsSpreadInsert acc) []

/-- The `Object.keys(allDependencies).map(...)` loop: classify each specifier,
throwing on the first invalid one. -/
def validateDeps : List (String × String) → Except String (List Dependency)
  | [] => .ok []
  | (n, v) :: rest =>
    if !isValidVersion v then .error ("Invalid semver version: " ++ v)
    else
      match validateDeps rest with
      | .ok ds =>
        .ok ({ name := n,
               type := if strStartsWith v "workspace:" then .workspace else .npm,
               version := v } :: ds)
      | .error e => .error e

/-- `loadPackage` (`package-service.ts`, lines 15-68).  The filesystem read and
JSON parse are presupposed (the parsed object is the `m` argument); the registry
lookup `NpmGateway.fetchPackageInfo` is supplied as the `npmVersion` /
`npmTarball` arguments.  `inputsAccess` is `inputs.access`. -/
def loadPackage (m : RawManifest) (inputsAccess : String) (npmVersion : String)
    (npmTarball : Option String) : Except String Package :=
  match m.name with
  | none => .error "Package name is required"
  | some name =>
    -- JS truthiness: the empty string is falsy, so `if (!name) throw`.
    if name = "" then .error "Package name is required"
    else
      match validateDeps
          (jsMerge [m.dependencies, m.devDependencies, m.peerDependencies]) with
      | .error e => .error e
      | .ok deps =>
        let access := if m.isPrivate then "restricted" else "public"
        if access ≠ inputsAccess then
          .error ("Package access mismatch: " ++ access ++ " !== " ++ inputsAccess)
        else
          .ok { name := name
                version := npmVersion
                tarballUrl := npmTarball
                access := access
                hasNpmTag := m.npmTag
                dependencies := deps
                json := { version := m.version
                          dependencies := m.dependencies
                          devDependencies := m.devDependencies
                          peerDependencies := m.peerDependencies } }

/-! ## Change detection (`package-service.ts`, `checkChanges`) -/

/-- Outcomes of the external operations one package's change check performs.
`prepOk` is false when any step before the `diff` invocation throws: the
tarball download (`curl` failure), the 50MB size guard, `bun pm pack`, the
archive extractions, or the manifest reads/writes.  `diffExitCode` is the exit
code of `timeout 30 diff -rq` (`124` = timed out).  `sizes` is the result of
the two `getDirectorySize` calls (`none` = that fallback itself threw). -/
structure CheckEnv where
  version : String
  hasTarballUrl : Bool
  prepOk : Bool
  diffExitCode : Int
  sizes : Option (Nat × Nat)
deriving DecidableEq, Repr

/-- One package's body of `checkChanges` (lines 282-376): `true` means the
package is classified as changed. -/
def checkOneChanged (e : CheckEnv) : Bool :=
  -- `if (pkg.version === "0.0.0" || !pkg.tarballUrl)`: first publish.
  if e.version == "0.0.0" || !e.hasTarballUrl then true
  -- outer `catch`: any failure before the diff ⇒ "assuming changes".
  else if !e.prepOk then true
  else
    let hasChanges := e.diffExitCode != 0
    if e.diffExitCode == 124 then true
    else if e.diffExitCode != 0 && e.diffExitCode != 1 then
      -- diff error (not just differences found): size-comparison fallback.
      match e.sizes with
      | some (localSize, npmSize) => ((localSize : Int) - (npmSize : Int)).natAbs > 100
      | none => true
    else hasChanges

/-- `checkChanges` over a package list: keep exactly the changed packages.
`envOf` supplies the per-package external outcomes. -/
def checkChanges (envOf : Package → CheckEnv) (pkgs : List Package) : List Package :=
  pkgs.filter (fun p => checkOneChanged (envOf p))

/-! ## A model of the `semver` library (`node-semver`), as far as the service
uses it: `semver.inc(version, release)` and
`semver.inc(version, "prerelease", "dev")`. -/

/-- One dot-separated prerelease identifier; node-semver stores all-digit
identifiers as numbers. -/
inductive PreId where
  | num (n : Nat)
  | str (s : String)
deriving DecidableEq, Repr

structure SemVerV where
  major : Nat
  minor : Nat
  patch : Nat
  prerelease : List PreId
deriving DecidableEq, Repr

/-- A dot-separated identifier run: all-digit identifiers become numbers. -/
def parsePreId (l : List Char) : PreId :=
  if !l.isEmpty && l.all Char.isDigit then .num (charsToNat l) else .str (String.mk l)

/-- Parse `M.m.p(-pre)?(+build)?`.  Build metadata is dropped: `SemVer.version`
(what `semver.inc` returns) never includes it.  The prerelease part is
everything after the first `-` of the build-free string; it must split on `.`
into nonempty identifiers. -/
def semverParse (s : String) : Option SemVerV :=
  let noBuild := s.toList.takeWhile (fun c => c != '+')
  let core := noBuild.takeWhile (fun c => c != '-')
  match splitOnChar '.' core with
  | [ma, mi, pa] =>
    if [ma, mi, pa].all (fun t => !t.isEmpty && t.all Char.isDigit) then
      let v := ⟨charsToNat ma, charsToNat mi, charsToNat pa, ([] : List PreId)⟩
      match noBuild.drop (core.length + 1) with
      | [] =>
        -- either no `-` at all, or a trailing `-` with an empty prerelease
        -- part; the latter is not a valid semver, so require no `-`.
        if core.length = noBuild.length then some v else none
      | preChars =>
        let ids := splitOnChar '.' preChars
        if ids.all (fun t => !t.isEmpty) then
          some { v with prerelease := ids.map parsePreId }
        else none
    else none
  | _ => none

/-- Walking from the end of the prerelease list, increment the first numeric
identifier (node-semver's `while (--i >= 0) { if number: ++, stop }`); `none`
when there is no numeric identifier.  The input is the *reversed* list. -/
def incFirstNumFromEnd : List PreId → Option (List PreId)
  | [] => none
  | .num n :: rest => some (.num (n + 1) :: rest)
  | x :: rest => (incFirstNumFromEnd rest).map (x :: ·)

/-- `inc('pre')` without the identifier adjustment: empty prerelease becomes
`[0]` (`base = 0` since `identifierBase` is undefined); otherwise the last
numeric identifier is incremented, and if none exists `0` is pushed. -/
def incPreList (pre : List PreId) : List PreId :=
  match pre with
  | [] => [.num 0]
  | _ =>
    match incFirstNumFromEnd pre.reverse with
    | some r => r.reverse
    | none => pre ++ [.num 0]

/-- The identifier adjustment at the end of `inc('pre', identifier)`: if the
first identifier differs from `identifier`, or the second is not a number
(`isNaN(this.prerelease[1])`), the whole prerelease is reset to
`[identifier, 0]`. -/
def applyIdent (id : String) (pre : List PreId) : List PreId :=
  match pre with
  | .str s :: rest =>
    if s = id then
      match rest with
      | .num _ :: _ => pre
      | _ => [.str id, .num 0]
    else [.str id, .num 0]
  | _ => [.str id, .num 0]

inductive Release where
  | major
  | minor
  | patch
  | prerelease
deriving DecidableEq, Repr

/-- `SemVer.prototype.inc` for the releases the service uses. -/
def semverIncV (v : SemVerV) (r : Release) (id : Option String) : SemVerV :=
  match r with
  | .major =>
    let ma := if v.minor ≠ 0 || v.patch ≠ 0 || v.prerelease = [] then v.major + 1 else v.major
    ⟨ma, 0, 0, []⟩
  | .minor =>
    let mi := if v.patch ≠ 0 || v.prerelease = [] then v.minor + 1 else v.minor
    ⟨v.major, mi, 0, []⟩
  | .patch =>
    let pa := if v.prerelease = [] then v.patch + 1 else v.patch
    ⟨v.major, v.minor, pa, []⟩
  | .prerelease =>
    -- a non-prerelease input first gets `inc('patch')` (which, the prerelease
    -- being empty, increments the patch component), then `inc('pre')`.
    let v1 := if v.prerelease = [] then ⟨v.major, v.minor, v.patch + 1, []⟩ else v
    { v1 with prerelease :=
        match id with
        | some i => applyIdent i (incPreList v1.prerelease)
        | none => incPreList v1.prerelease }

def PreId.render : PreId → String
  | .num n => toString n
  | .str s => s

/-- `List.intercalate` for strings, structurally. -/
def joinSep (sep : String) : List String → String
  | [] => ""
  | [x] => x
  | x :: xs => x ++ sep ++ joinSep sep xs

def semverRender (v : SemVerV) : String :=
  let core := toString v.major ++ "." ++ toString v.minor ++ "." ++ toString v.patch
  if v.prerelease = [] then core
  else core ++ "-" ++ joinSep "." (v.prerelease.map PreId.render)

/-- `semver.inc(s, r, id)`: `null` (here `none`) on an unparsable version. -/
def semverIncStr (s : String) (r : Release) (id : Option String) : Option String :=
  (semverParse s).map (fun v => semverRender (semverIncV v r id))

/-! ## Version calculator -/

/-- External operations observable in the claims: subprocess invocations,
manifest writes, registry publishes. -/
inductive Effect where
  | subprocess (command : String)
  | wroteManifest (pkgName : String) (json : PkgJson)
  | published (pkgName : String) (version : String)
deriving DecidableEq, Repr

/-- `BRANCH_CONFIG` (`src/types/inputs.ts`): hardcoded branch configuration. -/
def branchConfigMain : String := "main"

def branchConfigDev : String := "dev"

inductive BumpLevel where
  | major
  | minor
  | patch
deriving DecidableEq, Repr

def BumpLevel.toStr : BumpLevel → String
  | .major => "major"
  | .minor => "minor"
  | .patch => "patch"

def BumpLevel.release : BumpLevel → Release
  | .major => .major
  | .minor => .minor
  | .patch => .patch

/-- `currentVersion.includes("-dev.")`. -/
def containsDevTag (s : String) : Bool := containsSubstrC "-dev.".toList s.toList

/-- `calcUpdateVersion` (`package-service.ts`, lines 121-158).  The current
branch is obtained from `GitHubGateway.getCurrentBranch()` and passed here as
the `branch` argument; `exec` is the subprocess gateway
(`GitHubGateway.execute`), in scope for the service but never invoked by this
function.  Returns the computed version (`.error` = the thrown message)
together with the list of gateway operations performed. -/
def calcUpdateVersion (exec : String → String) (branch : String)
    (currentVersion : String) (bumpLevel : BumpLevel) :
    Except String String × List Effect :=
  -- `if (!currentVersion || currentVersion === "null" || currentVersion.trim() === "")`
  let cv := if currentVersion = "" || currentVersion = "null" || jsTrim currentVersion = ""
    then "0.0.0" else currentVersion
  if branch = branchConfigMain then
    match semverIncStr cv bumpLevel.release none with
    | some nv => (.ok nv, [])
    | none => (.error ("Failed to bump version " ++ cv ++ " by " ++ bumpLevel.toStr), [])
  else if branch = branchConfigDev then
    if containsDevTag cv then
      -- already has a dev tag: bump the prerelease number.
      match semverIncStr cv .prerelease (some "dev") with
      | some nv => (.ok nv, [])
      | none => (.error ("Failed to calculate dev version for " ++ cv), [])
    else
      -- stable version: bump patch, then add the dev tag.
      match semverIncStr cv .patch none with
      | none => (.error ("Failed to bump patch version " ++ cv), [])
      | some bumpedPatch =>
        match semverIncStr bumpedPatch .prerelease (some "dev") with
        | some nv => (.ok nv, [])
        | none => (.error ("Failed to calculate dev version for " ++ cv), [])
  else (.error ("Branch '" ++ branch ++ "' is not main or dev"), [])

/-- The regex `-dev\.(\d+)` anchored at the end of the string: the trailing
digits after the last `-dev.`, when the string ends in `-dev.<digits>`.
`\d+` is greedy, so the digit run is the maximal trailing one; working from
the reversed string, that run must be nonempty and be followed (in reverse)
by `.ved-`. -/
def devSuffixNum (s : String) : Option Nat :=
  let r := s.toList.reverse
  let ds := r.takeWhile Char.isDigit
  if !ds.isEmpty && isPrefixList ".ved-".toList (r.drop ds.length) then
    some (charsToNat ds.reverse)
  else none

/-- `currentVersion.replace(..., "")` with the same end-anchored regex:
remove a trailing `-dev.<digits>` suffix, if present. -/
def stripDevSuffix (s : String) : String :=
  let r := s.toList.reverse
  let ds := r.takeWhile Char.isDigit
  if !ds.isEmpty && isPrefixList ".ved-".toList (r.drop ds.length) then
    String.mk (r.drop (ds.length + 5)).reverse
  else s

/-- The legacy `calcUpdateVersion` (`src/unnamed/part_002`, lines 83-109).  On
the main line it spawns a subprocess, `bunx semver -i <bumpLevel>
<currentVersion>`, and returns its trimmed stdout (`exec` maps the command to
that stdout); on the dev line it rewrites the `-dev.N` suffix with string and
regex operations. -/
def calcUpdateVersionLegacy (exec : String → String) (branch : String)
    (currentVersion : String) (bumpLevel : BumpLevel) :
    Except String String × List Effect :=
  let cv := if currentVersion = "" || currentVersion = "null" then "0.0.0" else currentVersion
  if branch = branchConfigMain then
    let command := "bunx semver -i \"" ++ bumpLevel.toStr ++ "\" \"" ++ cv ++ "\""
    (.ok (jsTrim (exec command)), [.subprocess command])
  else if branch = branchConfigDev then
    let base := stripDevSuffix cv
    let next := match devSuffixNum cv with
      | some n => n + 1
      | none => 0
    (.ok (base ++ "-dev." ++ toString next), [])
  else (.error ("Branch '" ++ branch ++ "' is not main or dev"), [])

/-! ## Batch scheduling (`workspace-service.ts`, `resolveExecutionBatches`) -/

def pkgNames (pkgs : List Package) : List String := pkgs.map (·.name)

/-- The `workspaceDeps` list computed for `pkg`: the names of its
`workspace`-type dependencies whose target is among the packages being
published (`dep.type === "workspace" && pkgNames.has(dep.name)`), in
declaration order and with multiplicity. -/
def internalDeps (pkgs : List Package) (p : Package) : List String :=
  (p.dependencies.filter
    (fun d => d.type == DepType.workspace && (pkgNames pkgs).contains d.name)).map (·.name)

/-- The scheduler's `dependedBy` map: for each package name, the names of the
packages that depend on it, one entry per declared edge, in the push order of
the source's loops. -/
def dependedByMap (pkgs : List Package) (s : String) : List String :=
  pkgs.flatMap (fun p =>
    (internalDeps pkgs p).filterMap (fun d => if d == s then some p.name else none))

/-- `inDegree` initialisation: each package's in-degree is the length of its
`workspaceDeps` list.  (Names outside the package set are never queried.) -/
def inDeg0 (pkgs : List Package) (s : String) : Int :=
  match pkgs.find? (fun p => p.name == s) with
  | some p => ((internalDeps pkgs p).length : Int)
  | none => 0

/-- The batch-collection loop: scan `pkgs` in order, taking every package whose
in-degree is `0` and immediately marking it with `-1`. -/
def collectBatch (pkgs : List Package) (inDeg : String → Int) :
    List Package × (String → Int) :=
  pkgs.foldl
    (fun acc p =>
      if acc.2 p.name == 0 then
        (acc.1 ++ [p], fun s => if s == p.name then -1 else acc.2 s)
      else acc)
    ([], inDeg)

/-- One guarded decrement:
`if (inDegree.get(depName)! > 0) inDegree.set(depName, inDegree.get(depName)! - 1)`. -/
def decStep (inDeg : String → Int) (t : String) : String → Int :=
  if inDeg t > 0 then fun s => if s == t then inDeg t - 1 else inDeg s else inDeg

/-- After a batch is emitted, decrement the in-degree of every dependent of
every member (`batch.forEach(pkg => dependedBy.get(pkg.name)?.forEach(...))`). -/
def decBatch (dependedBy : String → List String) (batch : List Package)
    (inDeg : String → Int) : String → Int :=
  batch.foldl (fun d p => (dependedBy p.name).foldl decStep d) inDeg

/-- The `while (processed < pkgs.length)` loop of `resolveExecutionBatches`.
Each iteration either throws or processes at least one package, so the
iteration count is bounded by `pkgs.length`; `fuel` carries that bound
(`resolveExecutionBatches` starts it at `pkgs.length`, and the invariant
`pkgs.length - processed ≤ fuel` keeps it sufficient throughout). -/
def kahnAux (pkgs : List Package) (dependedBy : String → List String) :
    Nat → (String → Int) → Nat → Except String (List (List Package))
  | 0, _, _ => .ok []
  | fuel + 1, inDeg, processed =>
    if processed < pkgs.length then
      let bi := collectBatch pkgs inDeg
      if bi.1.length = 0 then .error "Circular dependency detected"
      else
        match kahnAux pkgs dependedBy fuel (decBatch dependedBy bi.1 bi.2)
            (processed + bi.1.length) with
        | .ok batches => .ok (bi.1 :: batches)
        | .error e => .error e
    else .ok []

/-- `resolveExecutionBatches` (`workspace-service.ts`, lines 100-155). -/
def resolveExecutionBatches (pkgs : List Package) : Except String (List (List Package)) :=
  kahnAux pkgs (dependedByMap pkgs) pkgs.length (inDeg0 pkgs) 0

/-- One edge of the internal-dependency graph restricted to the set: the
package named `a` declares a workspace dependency on the set member named
`b`. -/
def DepStep (pkgs : List Package) (a b : String) : Prop :=
  ∃ p ∈ pkgs, p.name = a ∧ b ∈ internalDeps pkgs p

/-- A dependency cycle within the package set. -/
def HasCycle (pkgs : List Package) : Prop :=
  ∃ a, Relation.TransGen (DepStep pkgs) a a

/-- The Batch-Plan ordering invariant relative to an already-processed name
set `done`: every internal dependency of a batch-`i` member is either already
processed or provided by a strictly earlier batch. -/
def OrderedFrom (pkgs : List Package) (done : List String)
    (batches : List (List Package)) : Prop :=
  ∀ (i : Nat) (hi : i < batches.length), ∀ p ∈ batches.get ⟨i, hi⟩,
    ∀ d ∈ internalDeps pkgs p,
      d ∈ done ∨ ∃ j, ∃ hj : j < batches.length, j < i ∧
        ∃ q ∈ batches.get ⟨j, hj⟩, q.name = d

/-- A two-package dependency cycle. -/
def cycPkgA : Package :=
  { name := "a", dependencies := [⟨"b", .workspace, "workspace:*"⟩] }

def cycPkgB : Package :=
  { name := "b", dependencies := [⟨"a", .workspace, "workspace:*"⟩] }

/-- The scheduler loop invariant: a processed package's in-degree is `-1`;
an unprocessed package's in-degree counts its not-yet-processed internal
dependencies (with multiplicity). -/
def IdegOK (pkgs : List Package) (done : List String) (inDeg : String → Int) : Prop :=
  ∀ p ∈ pkgs, inDeg p.name =
    if done.contains p.name then -1
    else ((internalDeps pkgs p).countP (fun d => !done.contains d) : Int)

/-! ## Dependent expansion (`workspace-service.ts`, `expandDependents`) -/

/-- The reverse-dependency map built from ALL packages: `dependedByAll all s`
lists the packages declaring a `workspace` dependency on `s`, one entry per
such declaration, in scan order.  (Unlike the scheduler's map, the target is
not required to be in the package set.) -/
def dependedByAll (allPkgs : List Package) (s : String) : List Package :=
  allPkgs.flatMap (fun p =>
    (p.dependencies.filter (fun d => d.type == DepType.workspace && d.name == s)).map
      (fun _ => p))

/-- `new Set(changedPkgs)`: deduplicate, keeping first occurrences. -/
def dedupKeepFirst (l : List Package) : List Package :=
  l.foldl (fun acc p => if acc.contains p then acc else acc ++ [p]) []

/-- The body of the BFS inner loop: a dependent that is already in the
expanded set is skipped; otherwise it is appended to the expanded set (first
component) and to the list of newly enqueued packages (second component). -/
def bfsInsert (acc : List Package × List Package) (dep : Package) :
    List Package × List Package :=
  if acc.1.contains dep then acc else (acc.1 ++ [dep], acc.2 ++ [dep])

/-- The `for (const dependent of dependents)` loop over one popped package's
dependents. -/
def bfsStep (expanded deps : List Package) : List Package × List Package :=
  deps.foldl bfsInsert (expanded, [])

/-- The BFS loop: pop the queue head, append every not-yet-expanded dependent
to both the expanded list and the queue.  Every enqueue is paired with an
insertion into `expanded`, so the iteration count is bounded by the initial
queue length plus the number of packages; `fuel` carries that bound. -/
def bfsExpand (dependedBy : String → List Package) :
    Nat → List Package → List Package → List Package
  | 0, expanded, _ => expanded
  | _ + 1, expanded, [] => expanded
  | fuel + 1, expanded, current :: queue =>
    let step := bfsStep expanded (dependedBy current.name)
    bfsExpand dependedBy fuel step.1 (queue ++ step.2)

/-- `expandDependents` (`workspace-service.ts`, lines 55-94). -/
def expandDependents (allPkgs changedPkgs : List Package) : List Package :=
  bfsExpand (dependedByAll allPkgs) (changedPkgs.length + allPkgs.length)
    (dedupKeepFirst changedPkgs) changedPkgs

/-! ## Batched publishing (`workspace-service.ts`, `publishBatches`) -/

/-- `val.includes("workspace:")`. -/
def containsWorkspace (s : String) : Bool := containsSubstrC "workspace:".toList s.toList

/-- The collaborators of `publishBatches`: the registry gateway's
`fetchPackageInfo` (`none` = the fetch threw, `some v` = it returned version
`v`), the version calculator as resolved for this run's branch and bump level
(`none` = it threw), and the per-package success of
`PackageService.publishPackage`. -/
structure PublishEnv where
  registry : String → Option String
  calcVersion : String → Option String
  publishOk : String → Bool

/-- `Map.get`. -/
def assocLookup {α : Type} (m : List (String × α)) (k : String) : Option α :=
  (m.find? (fun p => p.1 == k)).map (·.2)

/-- `Map.set`: overwrite in place or append. -/
def assocInsert {α : Type} (m : List (String × α)) (k : String) (v : α) :
    List (String × α) :=
  if m.any (fun p => p.1 == k) then m.map (fun p => if p.1 == k then (k, v) else p)
  else m ++ [(k, v)]

/-- `Map.get` on the string maps of the publish run. -/
def mapLookup (m : List (String × String)) (k : String) : Option String :=
  assocLookup m k

/-- `Map.set` on the string maps of the publish run. -/
def mapInsert (m : List (String × String)) (k v : String) : List (String × String) :=
  assocInsert m k v

/-- The pre-fetch scan (lines 174-191): collect, in first-encounter order,
every dependency name that names a package of `allPkgs` and whose declared
specifier contains `workspace:`.  (The `publishedVersions.has(name)` guard of
the scan is vacuous: the map is still empty when the scan runs, before any
batch.) -/
def workspaceDepsToFetch (allPkgs : List Package) (batches : List (List Package)) :
    List String :=
  batches.foldl
    (fun acc batch =>
      batch.foldl
        (fun acc pkg =>
          [DepCat.deps, DepCat.dev, DepCat.peer].foldl
            (fun acc t =>
              (pkg.json.cat t).foldl
                (fun acc kv =>
                  if allPkgs.any (fun p => p.name == kv.1) && containsWorkspace kv.2
                      && !acc.contains kv.1
                  then acc ++ [kv.1] else acc)
                acc)
            acc)
        acc)
    []

/-- "Fetch external versions in parallel" (lines 193-207): build
`fetchedVersions`; a throwing fetch is caught and skipped, and versions that
are falsy or `"0.0.0"` are not recorded. -/
def fetchedVersions (env : PublishEnv) (names : List String) : List (String × String) :=
  names.foldl
    (fun acc n =>
      match env.registry n with
      | some v => if v ≠ "" && v ≠ "0.0.0" then mapInsert acc n v else acc
      | none => acc)
    []

/-- The `for (const [name, val] of Object.entries(deps))` rewrite loop over one
dependency category (lines 230-267).  Resolution priority: (1) a version
published in this run, (2) the pre-fetched registry version, (3) a fresh
registry fetch.  Returns the rewritten list and `false` if resolution threw
(`Failed to resolve workspace dependency ...`), in which case the remaining
entries are left untouched. -/
def rewriteDeps (env : PublishEnv) (publishedVersions fetched : List (String × String)) :
    List (String × String) → List (String × String) × Bool
  | [] => ([], true)
  | (n, v) :: rest =>
    if containsWorkspace v then
      match mapLookup publishedVersions n with
      | some pv =>
        let r := rewriteDeps env publishedVersions fetched rest
        ((n, pv) :: r.1, r.2)
      | none =>
        match mapLookup fetched n with
        | some fv =>
          let r := rewriteDeps env publishedVersions fetched rest
          ((n, fv) :: r.1, r.2)
        | none =>
          match env.registry n with
          | some dv =>
            if dv ≠ "" && dv ≠ "0.0.0" then
              let r := rewriteDeps env publishedVersions fetched rest
              ((n, dv) :: r.1, r.2)
            else ((n, v) :: rest, false)
          | none => ((n, v) :: rest, false)
    else
      let r := rewriteDeps env publishedVersions fetched rest
      ((n, v) :: r.1, r.2)

structure PkgOutcome where
  json : PkgJson
  newVersion : Option String
  effects : List Effect
deriving DecidableEq, Repr

/-- One package's task inside a batch (the `batch.map(async pkg => ...)` body,
lines 214-280): compute the new version, set it in the manifest, rewrite
workspace specifiers in the three dependency categories, write the manifest,
publish.  `newVersion = none` means the task rejected; `json` is the manifest
as far as it was mutated in memory, `effects` the write/publish operations
that completed. -/
def publishOne (env : PublishEnv) (publishedVersions fetched : List (String × String))
    (pkg : Package) : PkgOutcome :=
  match env.calcVersion pkg.version with
  | none => { json := pkg.json, newVersion := none, effects := [] }
  | some uv =>
    let j0 := { pkg.json with version := uv }
    let rd := rewriteDeps env publishedVersions fetched j0.dependencies
    if !rd.2 then
      { json := { j0 with dependencies := rd.1 }, newVersion := none, effects := [] }
    else
      let j1 := { j0 with dependencies := rd.1 }
      let rv := rewriteDeps env publishedVersions fetched j1.devDependencies
      if !rv.2 then
        { json := { j1 with devDependencies := rv.1 }, newVersion := none, effects := [] }
      else
        let j2 := { j1 with devDependencies := rv.1 }
        let rp := rewriteDeps env publishedVersions fetched j2.peerDependencies
        if !rp.2 then
          { json := { j2 with peerDependencies := rp.1 }, newVersion := none, effects := [] }
        else
          let j3 := { j2 with peerDependencies := rp.1 }
          if env.publishOk pkg.name then
            { json := j3, newVersion := some uv,
              effects := [.wroteManifest pkg.name j3, .published pkg.name uv] }
          else
            { json := j3, newVersion := none, effects := [.wroteManifest pkg.name j3] }

/-- The orchestrator's run-wide state: the `published` array, the
`publishedVersions` map, the in-memory manifests of the packages a batch has
touched, and the accumulated external effects. -/
structure RunState where
  published : List (String × String) := []
  publishedVersions : List (String × String) := []
  manifests : List (String × PkgJson) := []
  effects : List Effect := []
deriving DecidableEq, Repr

def manifestInsert (ms : List (String × PkgJson)) (k : String) (j : PkgJson) :
    List (String × PkgJson) :=
  assocInsert ms k j

/-- The per-batch `T_PublishedPackage[]` results: name and computed version of
every member whose task resolved. -/
def batchRecs (env : PublishEnv) (fetched : List (String × String)) (s : RunState)
    (batch : List Package) : List (String × String) :=
  (batch.zip (batch.map (publishOne env s.publishedVersions fetched))).filterMap
    (fun po => po.2.newVersion.map (fun v => (po.1.name, v)))

/-- Process one batch: every member's task runs (concurrently in the source —
each task mutates only its own manifest and reads the shared maps as they were
at the batch boundary), and the batch resolves only if all tasks did.  On
resolution the results are appended to `published` and entered into
`publishedVersions`, in batch order (lines 283-289). -/
def runBatch (env : PublishEnv) (fetched : List (String × String)) (s : RunState)
    (batch : List Package) : RunState × Bool :=
  let outs := batch.map (publishOne env s.publishedVersions fetched)
  let manifests := (batch.zip outs).foldl
    (fun ms po => manifestInsert ms po.1.name po.2.json) s.manifests
  let effects := s.effects ++ outs.flatMap (·.effects)
  if outs.all (fun o => o.newVersion.isSome) then
    let recs := batchRecs env fetched s batch
    ({ published := s.published ++ recs
       publishedVersions := recs.foldl (fun m r => mapInsert m r.1 r.2) s.publishedVersions
       manifests := manifests
       effects := effects }, true)
  else ({ s with manifests := manifests, effects := effects }, false)

/-- The `for (let i = 0; i < batches.length; i++)` loop: batches run strictly
in order; a rejected batch propagates its exception, so no later batch
starts. -/
def runBatchesAux (env : PublishEnv) (fetched : List (String × String)) :
    List (List Package) → RunState → RunState × Bool
  | [], s => (s, true)
  | batch :: rest, s =>
    let rb := runBatch env fetched s batch
    if rb.2 then runBatchesAux env fetched rest rb.1 else (rb.1, false)

structure RunResult where
  summary : Option (List (String × String))
  manifests : List (String × PkgJson)
  effects : List Effect
deriving DecidableEq, Repr

/-- The `fetchedVersions` map of one run. -/
def runFetched (env : PublishEnv) (allPkgs : List Package)
    (batches : List (List Package)) : List (String × String) :=
  fetchedVersions env (workspaceDepsToFetch allPkgs batches)

/-- Lookup in the in-memory manifest map. -/
def jsonLookup (ms : List (String × PkgJson)) (k : String) : Option PkgJson :=
  assocLookup ms k

/-- `publishBatches` (`workspace-service.ts`, lines 168-293).  `summary` is the
function's return value — `none` when the run threw instead of returning. -/
def publishBatches (env : PublishEnv) (allPkgs : List Package)
    (batches : List (List Package)) : RunResult :=
  let r := runBatchesAux env (runFetched env allPkgs batches) batches {}
  { summary := if r.2 then some r.1.published else none
    manifests := r.1.manifests
    effects := r.1.effects }

/-- A manifest declaring the same dependency name once with a protocol
specifier (in `dependencies`) and once with a plain range (in
`devDependencies`). -/
def maskedManifest : RawManifest :=
  { name := some "p"
    dependencies := [("a", "file:../a")]
    devDependencies := [("a", "^1.0.0")] }

/-- The spec's end-to-end scenario packages: `app` depends on `core` and
`utils`. -/
def scenarioAll : List Package :=
  [{ name := "core" }, { name := "utils" },
   { name := "app",
     dependencies := [⟨"core", .workspace, "workspace:*"⟩,
                      ⟨"utils", .workspace, "workspace:*"⟩] }]

def scenarioChanged : List Package := [{ name := "utils" }]

/-- Two-batch publish scenario: `A` (later batch) declares a workspace
dependency on `B` (earlier batch); the registry still reports `B`'s old
version `0.5.0`. -/
def wsEnvC3 : PublishEnv :=
  { registry := fun _ => some "0.5.0"
    calcVersion := fun v => if v == "0.5.0" then some "0.5.1" else some "2.0.1"
    publishOk := fun _ => true }

def wsPkgB : Package := { name := "B", version := "0.5.0" }

def wsPkgA : Package :=
  { name := "A", version := "2.0.0"
    json := { version := "2.0.0", dependencies := [("B", "workspace:*")] } }

/-- Failure scenario: `Bad`'s publish is rejected by the registry; `Ok` is in
the same batch, `After` in the following one. -/
def failEnvC5 : PublishEnv :=
  { registry := fun _ => none
    calcVersion := fun _ => some "9.9.9"
    publishOk := fun n => n != "Bad" }

def okPkgC5 : Package := { name := "Ok" }

def badPkgC5 : Package := { name := "Bad" }

def afterPkgC5 : Package := { name := "After" }

def preOkPkgC5 : Package := { name := "Pre" }

/-!
# Theorems
-/

/-! ## C7 — change-detection failure policy -/

/-- C7 counterexample: when the recursive comparison fails with an exit code
other than "differences found" (here `diff` exit code `2`) and the size
fallback finds equal aggregate sizes, the package IS classified as unchanged —
refuting "the change detector never reports 'unchanged'" for
comparison-failure cases. -/
theorem claim7_counterexample :
    checkOneChanged { version := "1.0.0", hasTarballUrl := true, prepOk := true,
                      diffExitCode := 2, sizes := some (500, 500) } = false := by
  decide

/-- C7 (amended): for a package with a previously published artifact, the
failure policy of `checkOneChanged` is: any error before the comparison
(fetch failure, oversized artifact, pack failure) ⇒ changed, with no size
fallback; comparison timeout ⇒ changed, with no size fallback; any other
comparison failure ⇒ the aggregate-size fallback decides (changed exactly when
the sizes differ by more than 100 bytes — so it can still report unchanged);
and a failing size fallback ⇒ changed. -/
theorem claim7_failure_policy (e : CheckEnv)
    (hver : e.version ≠ "0.0.0") (hurl : e.hasTarballUrl = true) :
    (e.prepOk = false → checkOneChanged e = true) ∧
    (e.diffExitCode = 124 → checkOneChanged e = true) ∧
    (e.diffExitCode ≠ 0 → e.diffExitCode ≠ 1 → e.diffExitCode ≠ 124 → e.sizes = none →
      checkOneChanged e = true) ∧
    (∀ l n, e.diffExitCode ≠ 0 → e.diffExitCode ≠ 1 → e.diffExitCode ≠ 124 →
      e.sizes = some (l, n) → e.prepOk = true →
      (checkOneChanged e = true ↔ 100 < ((l : Int) - (n : Int)).natAbs)) := by
  have hv : (e.version == "0.0.0") = false := by
    simp only [beq_eq_false_iff_ne, ne_eq]
    exact hver
  refine ⟨?_, ?_, ?_, ?_⟩
  · intro hp
    simp [checkOneChanged, hv, hurl, hp]
  · intro hd
    by_cases hp : e.prepOk
    · simp [checkOneChanged, hv, hurl, hp, hd]
    · simp [checkOneChanged, hv, hurl, Bool.eq_false_iff.mpr hp]
  · intro h0 h1 h124 hs
    by_cases hp : e.prepOk
    · simp [checkOneChanged, hv, hurl, hp, hs, h0, h1, h124]
    · simp [checkOneChanged, hv, hurl, Bool.eq_false_iff.mpr hp]
  · intro l n h0 h1 h124 hs hp
    simp [checkOneChanged, hv, hurl, hp, hs, h0, h1, h124]

/-- Witness for C7 at a concrete environment: diff exit code 2, size delta
200 bytes ⇒ changed. -/
theorem claim7_failure_policy_witness :
    checkOneChanged { version := "1.0.0", hasTarballUrl := true, prepOk := true,
                      diffExitCode := 2, sizes := some (700, 500) } = true := by
  have h := claim7_failure_policy
    { version := "1.0.0", hasTarballUrl := true, prepOk := true,
      diffExitCode := 2, sizes := some (700, 500) } (by decide) (by decide)
  exact (h.2.2.2 700 500 (by decide) (by decide) (by decide) rfl rfl).mpr (by decide)

/-! ## C10 — the missing end anchor of the range pattern -/

/-- C10: `"1.2.3 arbitrary-garbage"` is accepted by `isValidVersion` although
it is not a workspace marker, not a dist-tag keyword, not the wildcard, not a
full match of the code's own range pattern (end-anchored), and not an exact or
prerelease version: `semverRangePattern` is anchored only at the start, so a
range-looking prefix with arbitrary trailing characters passes validation. -/
theorem claim10_unanchored_range :
    isValidVersion "1.2.3 arbitrary-garbage" = true ∧
    strStartsWith "1.2.3 arbitrary-garbage" "workspace:" = false ∧
    distTagKeywords.contains "1.2.3 arbitrary-garbage" = false ∧
    ("1.2.3 arbitrary-garbage" == "*") = false ∧
    semverRangeAnchoredTest "1.2.3 arbitrary-garbage" = false ∧
    prereleaseTest "1.2.3 arbitrary-garbage" = false := by
  decide

/-! ## C4 — version-calculator vectors -/

/-- C4: the actual values of `calcUpdateVersion` on the spec's four vectors.
The first three agree with the spec; the fourth does not: on the dev line a
stable `currentVersion` is patch-bumped to `1.2.4` and then
`semver.inc(..., "prerelease", "dev")` — which on a non-prerelease version
first applies another patch bump — yields `1.2.5-dev.0`, not the documented
`1.2.4-dev.0` (the code's own comment says `1.0.0 -> 1.0.1-dev.0`).  The
legacy variant disagrees a third way, returning `1.2.3-dev.0`. -/
theorem claim4_version_vectors :
    (calcUpdateVersion (fun _ => "") branchConfigMain "1.2.3" .patch).1 = .ok "1.2.4" ∧
    (calcUpdateVersion (fun _ => "") branchConfigMain "1.2.3" .major).1 = .ok "2.0.0" ∧
    (calcUpdateVersion (fun _ => "") branchConfigDev "1.2.4-dev.0" .patch).1 =
      .ok "1.2.4-dev.1" ∧
    (calcUpdateVersion (fun _ => "") branchConfigDev "1.2.3" .patch).1 =
      .ok "1.2.5-dev.0" ∧
    (calcUpdateVersionLegacy (fun _ => "") branchConfigDev "1.2.3" .patch).1 =
      .ok "1.2.3-dev.0" := by
  refine ⟨rfl, rfl, rfl, rfl, rfl⟩

/-! ## C9 — purity of the version calculator -/

/-- C9 counterexample: the legacy `calcUpdateVersion` on the main line returns
the trimmed stdout of a `bunx semver` subprocess, so two runs with identical
`(currentVersion, bumpLevel, branch)` inputs can return different results, and
its operation trace is not free of subprocess invocations. -/
theorem claim9_subprocess_counterexample :
    (calcUpdateVersionLegacy (fun _ => "1.2.4") branchConfigMain "1.2.3" .patch).1 =
      .ok "1.2.4" ∧
    (calcUpdateVersionLegacy (fun _ => "9.9.9") branchConfigMain "1.2.3" .patch).1 =
      .ok "9.9.9" ∧
    ("1.2.4" : String) ≠ "9.9.9" ∧
    (calcUpdateVersionLegacy (fun _ => "1.2.4") branchConfigMain "1.2.3" .patch).2 ≠ [] := by
  refine ⟨rfl, rfl, by decide, by decide⟩

/-- C9 (amended): the `package-service.ts` variant is pure — its result is
independent of the subprocess gateway and its operation trace is empty on all
branches; the legacy variant is pure on every branch except main, where it
performs exactly one subprocess invocation and (as the counterexample shows)
depends on its output. -/
theorem claim9_purity :
    (∀ (exec1 exec2 : String → String) (branch cv : String) (bl : BumpLevel),
      calcUpdateVersion exec1 branch cv bl = calcUpdateVersion exec2 branch cv bl) ∧
    (∀ (exec : String → String) (branch cv : String) (bl : BumpLevel),
      (calcUpdateVersion exec branch cv bl).2 = []) ∧
    (∀ (exec1 exec2 : String → String) (branch cv : String) (bl : BumpLevel),
      branch ≠ branchConfigMain →
      (calcUpdateVersionLegacy exec1 branch cv bl).1 =
        (calcUpdateVersionLegacy exec2 branch cv bl).1) ∧
    (∀ (exec : String → String) (cv : String) (bl : BumpLevel),
      (calcUpdateVersionLegacy exec branchConfigMain cv bl).2 =
        [.subprocess ("bunx semver -i \"" ++ bl.toStr ++ "\" \"" ++
          (if cv = "" || cv = "null" then "0.0.0" else cv) ++ "\"")]) ∧
    (∀ (exec : String → String) (branch cv : String) (bl : BumpLevel),
      branch ≠ branchConfigMain → (calcUpdateVersionLegacy exec branch cv bl).2 = []) := by
  refine ⟨fun _ _ _ _ _ => rfl, ?_, ?_, ?_, ?_⟩
  · intro exec branch cv bl
    simp only [calcUpdateVersion]
    repeat' split <;> try rfl
  · intro exec1 exec2 branch cv bl hb
    unfold calcUpdateVersionLegacy
    simp only [if_neg hb]
  · intro exec cv bl
    unfold calcUpdateVersionLegacy
    simp
  · intro exec branch cv bl hb
    unfold calcUpdateVersionLegacy
    simp only [if_neg hb]
    split <;> rfl

/-- Witness for C9's amended theorem at concrete inputs. -/
theorem claim9_purity_witness :
    (calcUpdateVersionLegacy (fun _ => "a") branchConfigDev "1.2.3" .patch).1 =
      (calcUpdateVersionLegacy (fun _ => "b") branchConfigDev "1.2.3" .patch).1 := by
  exact claim9_purity.2.2.1 (fun _ => "a") (fun _ => "b") branchConfigDev "1.2.3" .patch
    (by decide)

/-! ## C8 — protocol-specifier rejection at load time -/

/-- A specifier starting with `workspace:` cannot also start with one of the
five protocol markers. -/
lemma workspace_not_protocol {v : String} (h : strStartsWith v "workspace:" = true) :
    protocolTest v = false := by
  have h10 : v.toList.take 10 = "workspace:".toList := by
    have h' : v.toList.take ("workspace:".toList.length) = "workspace:".toList := by
      simpa [strStartsWith, isPrefixList] using h
    simpa using h'
  have h4 : v.toList.take 4 = ['w', 'o', 'r', 'k'] := by
    have := congrArg (List.take 4) h10
    simpa [List.take_take] using this
  have h5 : v.toList.take 5 = ['w', 'o', 'r', 'k', 's'] := by
    have := congrArg (List.take 5) h10
    simpa [List.take_take] using this
  have h6 : v.toList.take 6 = ['w', 'o', 'r', 'k', 's', 'p'] := by
    have := congrArg (List.take 6) h10
    simpa [List.take_take] using this
  have c1 : strStartsWith v "file:" = false := by
    simp only [strStartsWith, isPrefixList, show ("file:".toList.length) = 5 from rfl, h5]
    decide
  have c2 : strStartsWith v "link:" = false := by
    simp only [strStartsWith, isPrefixList, show ("link:".toList.length) = 5 from rfl, h5]
    decide
  have c3 : strStartsWith v "git:" = false := by
    simp only [strStartsWith, isPrefixList, show ("git:".toList.length) = 4 from rfl, h4]
    decide
  have c4 : strStartsWith v "http:" = false := by
    simp only [strStartsWith, isPrefixList, show ("http:".toList.length) = 5 from rfl, h5]
    decide
  have c5 : strStartsWith v "https:" = false := by
    simp only [strStartsWith, isPrefixList, show ("https:".toList.length) = 6 from rfl, h6]
    decide
  simp [protocolTest, c1, c2, c3, c4, c5]

/-- A specifier that validates is not protocol-anchored. -/
lemma valid_imp_not_protocol {v : String} (h : isValidVersion v = true) :
    protocolTest v = false := by
  by_contra hne
  have hp : protocolTest v = true := by
    cases hpt : protocolTest v
    · exact absurd hpt hne
    · rfl
  simp [isValidVersion, hp] at h

/-- If some entry of a dependency map is protocol-anchored, validation
throws. -/
lemma validateDeps_error_of_protocol {l : List (String × String)}
    (h : ∃ kv ∈ l, protocolTest kv.2 = true) : ∃ e, validateDeps l = .error e := by
  induction l with
  | nil => simp at h
  | cons hd tl ih =>
    obtain ⟨kv, hkv, hp⟩ := h
    by_cases hv : isValidVersion hd.2 = true
    · have hkvtl : kv ∈ tl := by
        rcases List.mem_cons.mp hkv with h1 | h1
        · subst h1
          exact absurd hp (by simp [valid_imp_not_protocol hv])
        · exact h1
      obtain ⟨e, he⟩ := ih ⟨kv, hkvtl, hp⟩
      refine ⟨e, ?_⟩
      obtain ⟨n, v⟩ := hd
      simp only [validateDeps]
      simp only at hv
      rw [if_neg (by simp [hv]), he]
    · refine ⟨"Invalid semver version: " ++ hd.2, ?_⟩
      obtain ⟨n, v⟩ := hd
      simp only [validateDeps]
      simp only at hv
      rw [if_pos (by simp [Bool.eq_false_iff.mpr hv])]

/-- C8 counterexample: the claim demands rejection whenever a protocol
specifier appears in ANY category, but `loadPackage` validates only the merged
`{...dependencies, ...devDependencies, ...peerDependencies}` object, in which
a later category's entry for the same name shadows an earlier one: a manifest
declaring `"a": "file:../a"` in `dependencies` and `"a": "^1.0.0"` in
`devDependencies` loads successfully. -/
theorem claim8_masked_protocol_counterexample :
    (loadPackage maskedManifest "public" "1.0.0" none).toOption.isSome = true ∧
    ("a", "file:../a") ∈ maskedManifest.dependencies ∧
    protocolTest "file:../a" = true := by
  refine ⟨rfl, by decide, by decide⟩

/-- C8 (amended): package loading fails whenever the specifier surviving in
the *merged* dependency map (`devDependencies` overriding `dependencies`,
`peerDependencies` overriding both) is protocol-anchored; workspace markers,
dist-tag keywords, the wildcard, range-pattern specifiers and exact/prerelease
versions are accepted by the validator. -/
theorem claim8_protocol_rejection
    (m : RawManifest) (acc npmV : String) (tb : Option String)
    (h : ∃ kv ∈ jsMerge [m.dependencies, m.devDependencies, m.peerDependencies],
      protocolTest kv.2 = true) :
    (∃ e, loadPackage m acc npmV tb = .error e) ∧
    (∀ v, strStartsWith v "workspace:" = true → isValidVersion v = true) ∧
    distTagKeywords.all isValidVersion = true ∧
    isValidVersion "*" = true ∧
    (∀ v, protocolTest v = false → semverRangeTest (stripWs v) = true →
      isValidVersion v = true) ∧
    (∀ v, protocolTest v = false → prereleaseTest v = true → isValidVersion v = true) := by
  refine ⟨?_, ?_, by decide, by decide, ?_, ?_⟩
  · obtain ⟨e, he⟩ := validateDeps_error_of_protocol h
    match hn : m.name with
    | none => exact ⟨"Package name is required", by simp [loadPackage, hn]⟩
    | some name =>
      by_cases hne : name = ""
      · exact ⟨"Package name is required", by simp [loadPackage, hn, hne]⟩
      · exact ⟨e, by simp [loadPackage, hn, hne, he]⟩
  · intro v hw
    simp [isValidVersion, workspace_not_protocol hw, hw]
  · intro v hp hr
    simp [isValidVersion, hp, hr, ite_self]
  · intro v hp hpre
    simp [isValidVersion, hp, hpre, ite_self]

/-- Witness for C8's amended theorem: a manifest whose merged map retains a
`git:` specifier is rejected. -/
theorem claim8_protocol_rejection_witness :
    (loadPackage { name := some "q", dependencies := [("a", "git:x")] }
      "public" "1.0.0" none).toOption = none := by
  obtain ⟨e, he⟩ := (claim8_protocol_rejection
    { name := some "q", dependencies := [("a", "git:x")] } "public" "1.0.0" none
    ⟨("a", "git:x"), by decide, by decide⟩).1
  rw [he]
  rfl

/-! ## C6 — idempotence of dependent expansion -/

/-- The dependent-collection fold appends to the expanded set (and records in
the enqueue list) exactly one copy of each dependent not already expanded. -/
lemma bfsInsert_foldl_spec (ds : List Package) : ∀ E B : List Package,
    ∃ N, ds.foldl bfsInsert (E, B) = (E ++ N, B ++ N) ∧
      (∀ p ∈ N, p ∈ ds ∧ p ∉ E) ∧ N.Nodup ∧ (∀ p ∈ ds, p ∈ E ∨ p ∈ N) := by
  induction ds with
  | nil =>
    intro E B
    exact ⟨[], by simp, by simp, List.nodup_nil, by simp⟩
  | cons d ds ih =>
    intro E B
    by_cases hd : d ∈ E
    · obtain ⟨N, h1, h2, h3, h4⟩ := ih E B
      refine ⟨N, ?_,
        fun p hp => ⟨List.mem_cons_of_mem _ (h2 p hp).1, (h2 p hp).2⟩, h3, ?_⟩
      · rw [List.foldl_cons]
        have hins : bfsInsert (E, B) d = (E, B) := by
          simp [bfsInsert, hd]
        rw [hins, h1]
      · intro p hp
        rcases List.mem_cons.mp hp with rfl | hp
        · exact Or.inl hd
        · exact h4 p hp
    · obtain ⟨N, h1, h2, h3, h4⟩ := ih (E ++ [d]) (B ++ [d])
      refine ⟨d :: N, ?_, ?_, ?_, ?_⟩
      · rw [List.foldl_cons]
        have hins : bfsInsert (E, B) d = (E ++ [d], B ++ [d]) := by
          simp [bfsInsert, hd]
        rw [hins, h1]
        simp
      · intro p hp
        rcases List.mem_cons.mp hp with rfl | hp
        · exact ⟨List.mem_cons_self _ _, hd⟩
        · obtain ⟨hpds, hpE⟩ := h2 p hp
          exact ⟨List.mem_cons_of_mem _ hpds,
            fun hpE' => hpE (List.mem_append_left _ hpE')⟩
      · refine List.nodup_cons.mpr ⟨?_, h3⟩
        intro hdN
        exact (h2 d hdN).2 (List.mem_append_right _ (List.mem_singleton.mpr rfl))
      · intro p hp
        rcases List.mem_cons.mp hp with rfl | hp
        · exact Or.inr (List.mem_cons_self _ _)
        · rcases h4 p hp with h | h
          · rcases List.mem_append.mp h with h | h
            · exact Or.inl h
            · rw [List.mem_singleton.mp h]
              exact Or.inr (List.mem_cons_self _ _)
          · exact Or.inr (List.mem_cons_of_mem _ h)

/-- When every dependent is already expanded, the inner loop is a no-op. -/
lemma bfsStep_closed {E ds : List Package} (h : ∀ d ∈ ds, d ∈ E) :
    bfsStep E ds = (E, []) := by
  obtain ⟨N, h1, h2, _, _⟩ := bfsInsert_foldl_spec ds E []
  have hN : N = [] := by
    cases N with
    | nil => rfl
    | cons p N =>
      exact absurd (h p (h2 p (List.mem_cons_self p N)).1)
        (h2 p (List.mem_cons_self p N)).2
  rw [bfsStep, h1, hN]
  simp

/-- Expansion of a set that is already closed under the reverse graph returns
exactly the expanded list: no iteration ever adds a package. -/
lemma bfs_stable (f : String → List Package) :
    ∀ (fuel : Nat) (E Q : List Package), (∀ p ∈ Q, p ∈ E) →
      (∀ p ∈ E, ∀ q ∈ f p.name, q ∈ E) →
      bfsExpand f fuel E Q = E := by
  intro fuel
  induction fuel with
  | zero => intro E Q _ _; rfl
  | succ n ih =>
    intro E Q hQ hcl
    cases Q with
    | nil => rfl
    | cons c Q =>
      have hstep : bfsStep E (f c.name) = (E, []) :=
        bfsStep_closed (fun d hd => hcl c (hQ c (List.mem_cons_self _ _)) d hd)
      show bfsExpand f n (bfsStep E (f c.name)).1 (Q ++ (bfsStep E (f c.name)).2) = E
      rw [hstep]
      simpa using ih E Q (fun p hp => hQ p (List.mem_cons_of_mem _ hp)) hcl

/-- Fuel accounting: expanding by a nodup batch `N` of unexpanded packages of
`U` shrinks the count of unexpanded packages of `U` by at least `N.length`. -/
lemma filter_drop_bound {U E N : List Package}
    (hN : ∀ p ∈ N, p ∈ U ∧ p ∉ E) (hnd : N.Nodup) :
    (U.filter (fun p => decide (p ∉ E ++ N))).length + N.length ≤
      (U.filter (fun p => decide (p ∉ E))).length := by
  have hperm := List.filter_append_perm (fun p => decide (p ∈ N))
    (U.filter (fun p => decide (p ∉ E)))
  have hlen := hperm.length_eq
  rw [List.length_append] at hlen
  have hsplit1 :
      ((U.filter (fun p => decide (p ∉ E))).filter (fun p => decide (p ∈ N))).length ≥
        N.length := by
    have hsubN : N ⊆ (U.filter (fun p => decide (p ∉ E))).filter
        (fun p => decide (p ∈ N)) := by
      intro p hp
      obtain ⟨hU, hE⟩ := hN p hp
      simp only [List.mem_filter, decide_eq_true_eq]
      exact ⟨⟨hU, hE⟩, hp⟩
    exact (hnd.subperm hsubN).length_le
  have hsplit2 :
      (U.filter (fun p => decide (p ∉ E))).filter (fun p => !decide (p ∈ N)) =
        U.filter (fun p => decide (p ∉ E ++ N)) := by
    rw [List.filter_filter]
    apply List.filter_congr
    intro p _
    by_cases h1 : p ∈ E <;> by_cases h2 : p ∈ N <;> simp [List.mem_append, h1, h2]
  rw [hsplit2] at hlen
  omega

/-- Main BFS invariant: with enough fuel (every reachable package lies in `U`),
starting from a nodup expanded set whose fully-processed members are already
closed, the result contains the initial set, is nodup, and is closed under the
reverse-dependency map. -/
lemma bfs_spec (f : String → List Package) (U : List Package)
    (hf : ∀ s, ∀ p ∈ f s, p ∈ U) :
    ∀ (fuel : Nat) (E Q : List Package),
      Q.length + (U.filter (fun p => decide (p ∉ E))).length ≤ fuel →
      (∀ p ∈ Q, p ∈ E) → E.Nodup →
      (∀ p ∈ E, p ∉ Q → ∀ q ∈ f p.name, q ∈ E) →
      (∀ p ∈ bfsExpand f fuel E Q, ∀ q ∈ f p.name, q ∈ bfsExpand f fuel E Q) ∧
        (bfsExpand f fuel E Q).Nodup ∧ E ⊆ bfsExpand f fuel E Q := by
  intro fuel
  induction fuel with
  | zero =>
    intro E Q hfuel hQ hnd hinv
    have hQnil : Q = [] := List.eq_nil_of_length_eq_zero (by omega)
    subst hQnil
    exact ⟨fun p hp q hq => hinv p hp (by simp) q hq, hnd, fun p hp => hp⟩
  | succ n ih =>
    intro E Q hfuel hQ hnd hinv
    cases Q with
    | nil =>
      exact ⟨fun p hp q hq => hinv p hp (by simp) q hq, hnd, fun p hp => hp⟩
    | cons c Q =>
      obtain ⟨N, h1, h2, h3, h4⟩ := bfsInsert_foldl_spec (f c.name) E []
      have hstep : bfsStep E (f c.name) = (E ++ N, N) := by
        rw [bfsStep, h1]
        simp
      have hNU : ∀ p ∈ N, p ∈ U ∧ p ∉ E :=
        fun p hp => ⟨hf c.name p (h2 p hp).1, (h2 p hp).2⟩
      have hfuel' : (Q ++ N).length +
          (U.filter (fun p => decide (p ∉ E ++ N))).length ≤ n := by
        have hb := filter_drop_bound hNU h3
        simp only [List.length_append]
        simp only [List.length_cons] at hfuel
        omega
      have hQ' : ∀ p ∈ Q ++ N, p ∈ E ++ N := by
        intro p hp
        rcases List.mem_append.mp hp with hp | hp
        · exact List.mem_append_left _ (hQ p (List.mem_cons_of_mem _ hp))
        · exact List.mem_append_right _ hp
      have hnd' : (E ++ N).Nodup := by
        refine hnd.append h3 ?_
        intro p hpE hpN
        exact (h2 p hpN).2 hpE
      have hinv' : ∀ p ∈ E ++ N, p ∉ Q ++ N → ∀ q ∈ f p.name, q ∈ E ++ N := by
        intro p hp hpq q hq
        rcases List.mem_append.mp hp with hpE | hpN
        · by_cases hpc : p = c
          · subst hpc
            rcases h4 q hq with h | h
            · exact List.mem_append_left _ h
            · exact List.mem_append_right _ h
          · have hpQ : p ∉ c :: Q := by
              intro hmem
              rcases List.mem_cons.mp hmem with h | h
              · exact hpc h
              · exact hpq (List.mem_append_left _ h)
            exact List.mem_append_left _ (hinv p hpE hpQ q hq)
        · exact absurd (List.mem_append_right Q hpN) hpq
      have hrec := ih (E ++ N) (Q ++ N) hfuel' hQ' hnd' hinv'
      show (∀ p ∈ bfsExpand f n (bfsStep E (f c.name)).1
              (Q ++ (bfsStep E (f c.name)).2), ∀ q ∈ f p.name,
              q ∈ bfsExpand f n (bfsStep E (f c.name)).1
                (Q ++ (bfsStep E (f c.name)).2)) ∧
            (bfsExpand f n (bfsStep E (f c.name)).1
              (Q ++ (bfsStep E (f c.name)).2)).Nodup ∧
            E ⊆ bfsExpand f n (bfsStep E (f c.name)).1
              (Q ++ (bfsStep E (f c.name)).2)
      rw [hstep]
      exact ⟨hrec.1, hrec.2.1,
        fun p hp => hrec.2.2 (List.mem_append_left _ hp)⟩

/-- `new Set(l)` membership. -/
lemma mem_dedupKeepFirst {l : List Package} {p : Package} :
    p ∈ dedupKeepFirst l ↔ p ∈ l := by
  have haux : ∀ (l acc : List Package), ∀ p,
      p ∈ l.foldl (fun acc p => if acc.contains p then acc else acc ++ [p]) acc ↔
        p ∈ acc ∨ p ∈ l := by
    intro l
    induction l with
    | nil => intro acc p; simp
    | cons d ds ih =>
      intro acc p
      rw [List.foldl_cons]
      by_cases hd : d ∈ acc
      · rw [if_pos (List.elem_iff.mpr hd), ih]
        constructor
        · rintro (h | h)
          · exact Or.inl h
          · exact Or.inr (List.mem_cons_of_mem _ h)
        · rintro (h | h)
          · exact Or.inl h
          · rcases List.mem_cons.mp h with rfl | h
            · exact Or.inl hd
            · exact Or.inr h
      · rw [if_neg (by
          intro hcc
          exact hd (List.elem_iff.mp hcc)), ih]
        simp only [List.mem_append, List.mem_singleton, List.mem_cons]
        tauto
  rw [dedupKeepFirst, haux]
  simp

/-- `new Set(l)` is duplicate-free. -/
lemma nodup_dedupKeepFirst (l : List Package) : (dedupKeepFirst l).Nodup := by
  have haux : ∀ (l acc : List Package), acc.Nodup →
      (l.foldl (fun acc p => if acc.contains p then acc else acc ++ [p]) acc).Nodup := by
    intro l
    induction l with
    | nil => intro acc h; exact h
    | cons d ds ih =>
      intro acc h
      rw [List.foldl_cons]
      by_cases hd : d ∈ acc
      · rw [if_pos (List.elem_iff.mpr hd)]
        exact ih acc h
      · rw [if_neg (by
          intro hcc
          exact hd (List.elem_iff.mp hcc))]
        refine ih _ ?_
        refine h.append (List.nodup_singleton d) ?_
        intro p hp hps
        rw [List.mem_singleton.mp hps] at hp
        exact hd hp
  exact haux l [] List.nodup_nil

/-- On a duplicate-free list, `new Set(l)` keeps the list as it is. -/
lemma dedupKeepFirst_eq_self {l : List Package} (h : l.Nodup) :
    dedupKeepFirst l = l := by
  have haux : ∀ (l acc : List Package), l.Nodup → (∀ p ∈ l, p ∉ acc) →
      l.foldl (fun acc p => if acc.contains p then acc else acc ++ [p]) acc =
        acc ++ l := by
    intro l
    induction l with
    | nil => intro acc _ _; simp
    | cons d ds ih =>
      intro acc hnd hdisj
      rw [List.foldl_cons,
        if_neg (by
          intro hcc
          exact hdisj d (List.mem_cons_self _ _) (List.elem_iff.mp hcc)),
        ih (acc ++ [d]) (List.nodup_cons.mp hnd).2]
      · simp
      · intro p hp hmem
        rcases List.mem_append.mp hmem with h | h
        · exact hdisj p (List.mem_cons_of_mem _ hp) h
        · rw [List.mem_singleton.mp h] at hp
          exact (List.nodup_cons.mp hnd).1 hp
  have hres := haux l [] h (by simp)
  rw [dedupKeepFirst, hres, List.nil_append]

/-- The reverse map ranges over `allPkgs`. -/
lemma dependedByAll_mem {allPkgs : List Package} {s : String} {p : Package}
    (hp : p ∈ dependedByAll allPkgs s) : p ∈ allPkgs := by
  rw [dependedByAll, List.mem_flatMap] at hp
  obtain ⟨q, hq, hmem⟩ := hp
  rw [List.mem_map] at hmem
  obtain ⟨d, _, rfl⟩ := hmem
  exact hq

/-- C6: dependent expansion is idempotent — re-expanding an expansion returns
the same list.  The hypotheses mirror the claim's setting ("every subset S of
a package list"): under unique names, the JS object identity used by the
source's `Set` coincides with the value equality of the model. -/
theorem claim6_expand_idempotent (allPkgs S : List Package)
    (hnames : (allPkgs.map Package.name).Nodup)
    (hsub : ∀ p ∈ S, p ∈ allPkgs) (hS : S.Nodup) :
    expandDependents allPkgs (expandDependents allPkgs S) =
      expandDependents allPkgs S := by
  have hf : ∀ s, ∀ p ∈ dependedByAll allPkgs s, p ∈ allPkgs :=
    fun s p hp => dependedByAll_mem hp
  have hspec := bfs_spec (dependedByAll allPkgs) allPkgs hf
    (S.length + allPkgs.length) (dedupKeepFirst S) S
    (by
      have := List.length_filter_le (fun p => decide (p ∉ dedupKeepFirst S)) allPkgs
      omega)
    (fun p hp => mem_dedupKeepFirst.mpr hp)
    (nodup_dedupKeepFirst S)
    (fun p hp hpq => absurd (mem_dedupKeepFirst.mp hp) hpq)
  obtain ⟨hclosed, hndE, _⟩ := hspec
  have hndE' : (expandDependents allPkgs S).Nodup := hndE
  have hclosed' : ∀ p ∈ expandDependents allPkgs S,
      ∀ q ∈ dependedByAll allPkgs p.name, q ∈ expandDependents allPkgs S := hclosed
  rw [expandDependents, dedupKeepFirst_eq_self hndE']
  exact bfs_stable (dependedByAll allPkgs) _ _ _ (fun p hp => hp) hclosed'

/-- Witness for C6 on the spec's end-to-end scenario (`app` depends on `core`
and `utils`; the changed set is `{utils}`). -/
theorem claim6_expand_idempotent_witness :
    expandDependents scenarioAll (expandDependents scenarioAll scenarioChanged) =
      expandDependents scenarioAll scenarioChanged :=
  claim6_expand_idempotent scenarioAll scenarioChanged (by decide) (by decide)
    (by decide)

/-! ## Assoc-map (JS `Map`) lemmas -/

lemma find?_map_overwrite {α : Type} (k k' : String) (v : α) (h : k ≠ k') :
    ∀ m : List (String × α),
      (m.map (fun p => if p.1 == k then (k, v) else p)).find? (fun p => p.1 == k') =
        m.find? (fun p => p.1 == k') := by
  intro m
  induction m with
  | nil => rfl
  | cons kv2 m2 ih2 =>
    by_cases h2 : kv2.1 = k
    · rw [List.map_cons, if_pos (by simp [h2])]
      rw [List.find?_cons_of_neg _ (by simp [h]),
        List.find?_cons_of_neg _ (by simp [h2, h])]
      exact ih2
    · rw [List.map_cons, if_neg (by simp [h2])]
      by_cases h3 : kv2.1 = k'
      · rw [List.find?_cons_of_pos _ (by simp [h3]),
          List.find?_cons_of_pos _ (by simp [h3])]
      · rw [List.find?_cons_of_neg _ (by simp [h3]),
          List.find?_cons_of_neg _ (by simp [h3])]
        exact ih2

lemma assocLookup_insert {α : Type} (k k' : String) (v : α) :
    ∀ m : List (String × α),
      assocLookup (assocInsert m k v) k' =
        if k' = k then some v else assocLookup m k' := by
  intro m
  induction m with
  | nil =>
    by_cases h : k' = k
    · subst h
      simp [assocInsert, assocLookup, List.find?]
    · simp [assocInsert, assocLookup, List.find?,
        show (k == k') = false from by simp [Ne.symm h], h]
  | cons kv m ih =>
    by_cases h1 : kv.1 = k
    · have hany : (kv :: m).any (fun p => p.1 == k) = true := by
        simp [List.any_cons, h1]
      rw [assocInsert, if_pos hany, List.map_cons, if_pos (by simp [h1])]
      by_cases h : k' = k
      · subst h
        simp [assocLookup, List.find?]
      · rw [if_neg h, assocLookup, List.find?_cons_of_neg _ (by simp [Ne.symm h]),
          assocLookup, List.find?_cons_of_neg _ (by simp [h1, Ne.symm h]),
          find?_map_overwrite k k' v (Ne.symm h)]
    · by_cases h2 : m.any (fun p => p.1 == k)
      · have hany : (kv :: m).any (fun p => p.1 == k) = true := by
          simp [List.any_cons, h2]
        have hins : assocInsert m k v =
            m.map (fun p => if p.1 == k then (k, v) else p) := by
          rw [assocInsert, if_pos h2]
        rw [assocInsert, if_pos hany, List.map_cons, if_neg (by simp [h1])]
        by_cases h : k' = k
        · subst h
          rw [if_pos rfl] at ih ⊢
          rw [assocLookup, List.find?_cons_of_neg _ (by simp [h1])]
          rw [hins, assocLookup] at ih
          exact ih
        · rw [if_neg h] at ih ⊢
          by_cases h3 : kv.1 = k'
          · rw [assocLookup, List.find?_cons_of_pos _ (by simp [h3]),
              assocLookup, List.find?_cons_of_pos _ (by simp [h3])]
          · rw [assocLookup, List.find?_cons_of_neg _ (by simp [h3]),
              assocLookup, List.find?_cons_of_neg _ (by simp [h3])]
            rw [hins, assocLookup] at ih
            rw [show assocLookup m k' = (m.find? (fun p => p.1 == k')).map (·.2)
              from rfl] at ih
            exact ih
      · have hany : ¬((kv :: m).any (fun p => p.1 == k) = true) := by
          simp only [List.any_cons, Bool.or_eq_true, not_or]
          exact ⟨by simp [h1], by simpa using h2⟩
        have hins : assocInsert m k v = m ++ [(k, v)] := by
          rw [assocInsert, if_neg h2]
        rw [assocInsert, if_neg hany, List.cons_append]
        by_cases h : k' = k
        · subst h
          rw [if_pos rfl] at ih ⊢
          rw [assocLookup, List.find?_cons_of_neg _ (by simp [h1])]
          rw [hins, assocLookup] at ih
          exact ih
        · rw [if_neg h] at ih ⊢
          by_cases h3 : kv.1 = k'
          · rw [assocLookup, List.find?_cons_of_pos _ (by simp [h3]),
              assocLookup, List.find?_cons_of_pos _ (by simp [h3])]
          · rw [assocLookup, List.find?_cons_of_neg _ (by simp [h3]),
              assocLookup, List.find?_cons_of_neg _ (by simp [h3])]
            rw [hins, assocLookup] at ih
            rw [show assocLookup m k' = (m.find? (fun p => p.1 == k')).map (·.2)
              from rfl] at ih
            exact ih

lemma assocLookup_foldl_of_fresh {α : Type} (recs : List (String × α)) (k : String)
    (h : ∀ r ∈ recs, r.1 ≠ k) :
    ∀ m : List (String × α),
      assocLookup (recs.foldl (fun m r => assocInsert m r.1 r.2) m) k =
        assocLookup m k := by
  induction recs with
  | nil => intro m; rfl
  | cons r recs ih =>
    intro m
    rw [List.foldl_cons, ih (fun r' hr' => h r' (List.mem_cons_of_mem _ hr')),
      assocLookup_insert, if_neg (Ne.symm (h r (List.mem_cons_self _ _)))]

lemma assocLookup_foldl_of_mem {α : Type} (recs : List (String × α)) (k : String) (v : α)
    (hmem : (k, v) ∈ recs) (hnd : (recs.map Prod.fst).Nodup) :
    ∀ m : List (String × α),
      assocLookup (recs.foldl (fun m r => assocInsert m r.1 r.2) m) k = some v := by
  induction recs with
  | nil => simp at hmem
  | cons r recs ih =>
    intro m
    rw [List.map_cons] at hnd
    rcases List.mem_cons.mp hmem with heq | hmem'
    · subst heq
      rw [List.foldl_cons]
      have hfresh : ∀ r' ∈ recs, r'.1 ≠ k := by
        intro r' hr' hk
        have hkmem : k ∈ recs.map Prod.fst := by
          rw [← hk]
          exact List.mem_map_of_mem Prod.fst hr'
        exact (List.nodup_cons.mp hnd).1 hkmem
      rw [assocLookup_foldl_of_fresh recs k hfresh]
      show assocLookup (assocInsert m k v) k = some v
      rw [assocLookup_insert, if_pos rfl]
    · rw [List.foldl_cons]
      exact ih hmem' (List.nodup_cons.mp hnd).2 _

/-! ## Publish-run structural lemmas -/

lemma runBatch_ok_iff (env : PublishEnv) (fetched : List (String × String))
    (s : RunState) (batch : List Package) :
    (runBatch env fetched s batch).2 = true ↔
      ∀ p ∈ batch,
        ((publishOne env s.publishedVersions fetched p).newVersion).isSome = true := by
  simp only [runBatch]
  split
  · rename_i h
    simp only [List.all_eq_true, List.mem_map] at h
    constructor
    · intro _ p hp
      exact h _ ⟨p, hp, rfl⟩
    · intro _
      rfl
  · rename_i h
    simp only [List.all_eq_true, List.mem_map] at h
    push_neg at h
    constructor
    · intro hfalse
      simp at hfalse
    · intro hall
      exfalso
      obtain ⟨o, ⟨p, hp, rfl⟩, hno⟩ := h
      exact hno (hall p hp)

lemma runBatch_effects (env : PublishEnv) (fetched : List (String × String))
    (s : RunState) (batch : List Package) :
    (runBatch env fetched s batch).1.effects =
      s.effects ++ (batch.map (publishOne env s.publishedVersions fetched)).flatMap
        PkgOutcome.effects := by
  simp only [runBatch]
  split <;> rfl

lemma runBatch_manifests (env : PublishEnv) (fetched : List (String × String))
    (s : RunState) (batch : List Package) :
    (runBatch env fetched s batch).1.manifests =
      (batch.zip (batch.map (publishOne env s.publishedVersions fetched))).foldl
        (fun ms po => manifestInsert ms po.1.name po.2.json) s.manifests := by
  simp only [runBatch]
  split <;> rfl

lemma runBatch_ok_state (env : PublishEnv) (fetched : List (String × String))
    (s : RunState) (batch : List Package)
    (h : (runBatch env fetched s batch).2 = true) :
    (runBatch env fetched s batch).1.published =
        s.published ++ batchRecs env fetched s batch ∧
      (runBatch env fetched s batch).1.publishedVersions =
        (batchRecs env fetched s batch).foldl (fun m r => mapInsert m r.1 r.2)
          s.publishedVersions := by
  simp only [runBatch] at h ⊢
  split at h
  · rename_i hc
    rw [if_pos hc]
    exact ⟨rfl, rfl⟩
  · simp at h

/-- Every per-batch record carries the name of a batch member. -/
lemma batchRecs_keys (env : PublishEnv) (fetched : List (String × String))
    (s : RunState) (batch : List Package) :
    ∀ r ∈ batchRecs env fetched s batch, ∃ p ∈ batch, r.1 = p.name := by
  intro r hr
  rw [batchRecs] at hr
  obtain ⟨⟨p, o⟩, hpo, hsome⟩ := List.mem_filterMap.mp hr
  obtain ⟨hp, _⟩ := List.of_mem_zip hpo
  refine ⟨p, hp, ?_⟩
  cases ho : o.newVersion with
  | none => rw [ho] at hsome; simp at hsome
  | some u =>
    rw [ho] at hsome
    have heq : (p.name, u) = r := by simpa using hsome
    rw [← heq]

/-- The record keys of one batch form a sublist of the batch's names. -/
lemma batchRecs_keys_sublist (env : PublishEnv) (fetched : List (String × String))
    (s : RunState) :
    ∀ batch : List Package,
      List.Sublist
        (((batch.zip (batch.map (publishOne env s.publishedVersions fetched))).filterMap
          (fun po => po.2.newVersion.map (fun v => (po.1.name, v)))).map Prod.fst)
        (batch.map Package.name) := by
  intro batch
  induction batch with
  | nil => simp
  | cons p b ih =>
    rw [List.map_cons, List.zip_cons_cons, List.filterMap_cons]
    cases hnv : (publishOne env s.publishedVersions fetched p).newVersion with
    | none =>
      simp only [Option.map_none]
      exact ih.trans (List.sublist_cons_self _ _)
    | some u =>
      simp only [Option.map_some, List.map_cons]
      exact ih.cons₂ _

/-- A member of a successful batch contributes the record
`(p.name, computed version)`. -/
lemma batchRecs_mem (env : PublishEnv) (fetched : List (String × String))
    (s : RunState) (batch : List Package) (p : Package) (u : String)
    (hp : p ∈ batch)
    (hu : (publishOne env s.publishedVersions fetched p).newVersion = some u) :
    (p.name, u) ∈ batchRecs env fetched s batch := by
  rw [batchRecs]
  apply List.mem_filterMap.mpr
  refine ⟨(p, publishOne env s.publishedVersions fetched p), ?_, by rw [hu]; rfl⟩
  induction batch with
  | nil => simp at hp
  | cons q b ih =>
    rw [List.map_cons, List.zip_cons_cons]
    rcases List.mem_cons.mp hp with rfl | hp'
    · exact List.mem_cons_self _ _
    · exact List.mem_cons_of_mem _ (ih hp')

lemma runBatch_fail_state (env : PublishEnv) (fetched : List (String × String))
    (s : RunState) (batch : List Package)
    (h : (runBatch env fetched s batch).2 = false) :
    (runBatch env fetched s batch).1.published = s.published ∧
      (runBatch env fetched s batch).1.publishedVersions = s.publishedVersions := by
  simp only [runBatch] at h ⊢
  split at h
  · simp at h
  · rename_i hc
    rw [if_neg hc]
    exact ⟨rfl, rfl⟩

lemma runAux_append_ok (env : PublishEnv) (fetched : List (String × String)) :
    ∀ (pre rest : List (List Package)) (s : RunState),
      (runBatchesAux env fetched pre s).2 = true →
      runBatchesAux env fetched (pre ++ rest) s =
        runBatchesAux env fetched rest (runBatchesAux env fetched pre s).1 := by
  intro pre
  induction pre with
  | nil =>
    intro rest s _
    rfl
  | cons b pre ih =>
    intro rest s hok
    simp only [runBatchesAux, List.cons_append] at hok ⊢
    by_cases hrb : (runBatch env fetched s b).2 = true
    · rw [if_pos hrb] at hok
      rw [if_pos hrb, if_pos hrb]
      exact ih rest (runBatch env fetched s b).1 hok
    · rw [if_neg hrb] at hok
      simp at hok

lemma runAux_fail_cons (env : PublishEnv) (fetched : List (String × String))
    (bad : List Package) (post : List (List Package)) (s : RunState)
    (h : (runBatch env fetched s bad).2 = false) :
    runBatchesAux env fetched (bad :: post) s = ((runBatch env fetched s bad).1, false) := by
  simp only [runBatchesAux]
  rw [if_neg (by simp [h])]

lemma runAux_effects_ext (env : PublishEnv) (fetched : List (String × String)) :
    ∀ (bs : List (List Package)) (s : RunState),
      ∃ ext, (runBatchesAux env fetched bs s).1.effects = s.effects ++ ext := by
  intro bs
  induction bs with
  | nil =>
    intro s
    exact ⟨[], by simp [runBatchesAux]⟩
  | cons b bs ih =>
    intro s
    simp only [runBatchesAux]
    by_cases hrb : (runBatch env fetched s b).2 = true
    · rw [if_pos hrb]
      obtain ⟨ext2, h2⟩ := ih (runBatch env fetched s b).1
      refine ⟨(b.map (publishOne env s.publishedVersions fetched)).flatMap
        PkgOutcome.effects ++ ext2, ?_⟩
      rw [h2, runBatch_effects, List.append_assoc]
    · rw [if_neg hrb]
      exact ⟨(b.map (publishOne env s.publishedVersions fetched)).flatMap
        PkgOutcome.effects, runBatch_effects env fetched s b⟩

lemma runAux_published_ext (env : PublishEnv) (fetched : List (String × String)) :
    ∀ (bs : List (List Package)) (s : RunState),
      ∃ ext, (runBatchesAux env fetched bs s).1.published = s.published ++ ext ∧
        ∀ kv ∈ ext, ∃ p ∈ bs.flatten, kv.1 = p.name := by
  intro bs
  induction bs with
  | nil =>
    intro s
    exact ⟨[], by simp [runBatchesAux], by simp⟩
  | cons b bs ih =>
    intro s
    simp only [runBatchesAux]
    by_cases hrb : (runBatch env fetched s b).2 = true
    · rw [if_pos hrb]
      obtain ⟨ext2, h2, hk2⟩ := ih (runBatch env fetched s b).1
      obtain ⟨hpub, _⟩ := runBatch_ok_state env fetched s b hrb
      refine ⟨batchRecs env fetched s b ++ ext2, ?_, ?_⟩
      · rw [h2, hpub, List.append_assoc]
      · intro kv hkv
        rcases List.mem_append.mp hkv with hkv | hkv
        · obtain ⟨p, hp, hname⟩ := batchRecs_keys env fetched s b kv hkv
          exact ⟨p, by simp [List.mem_flatten]; exact Or.inl hp, hname⟩
        · obtain ⟨p, hp, hname⟩ := hk2 kv hkv
          refine ⟨p, ?_, hname⟩
          rw [List.flatten_cons]
          exact List.mem_append_right _ hp
    · rw [if_neg hrb]
      have hfail := runBatch_fail_state env fetched s b (Bool.eq_false_iff.mpr hrb)
      refine ⟨[], ?_, by simp⟩
      show (runBatch env fetched s b).1.published = s.published ++ []
      rw [hfail.1, List.append_nil]

lemma assocLookup_append_fresh {α : Type} {m1 : List (String × α)} {k : String}
    (h : ∀ kv ∈ m1, kv.1 ≠ k) (m2 : List (String × α)) :
    assocLookup (m1 ++ m2) k = assocLookup m2 k := by
  induction m1 with
  | nil => rfl
  | cons kv m1 ih =>
    rw [List.cons_append, assocLookup,
      List.find?_cons_of_neg _ (by simp [h kv (List.mem_cons_self _ _)])]
    exact ih (fun kv' hkv' => h kv' (List.mem_cons_of_mem _ hkv'))

lemma assocLookup_append_left {α : Type} {m1 : List (String × α)} {k : String} {v : α}
    (h : assocLookup m1 k = some v) (m2 : List (String × α)) :
    assocLookup (m1 ++ m2) k = some v := by
  induction m1 with
  | nil => simp [assocLookup, List.find?] at h
  | cons kv m1 ih =>
    by_cases hk : kv.1 = k
    · rw [assocLookup, List.find?_cons_of_pos _ (by simp [hk])] at h
      rw [List.cons_append, assocLookup, List.find?_cons_of_pos _ (by simp [hk])]
      exact h
    · rw [assocLookup, List.find?_cons_of_neg _ (by simp [hk])] at h
      rw [List.cons_append, assocLookup, List.find?_cons_of_neg _ (by simp [hk])]
      exact ih h

lemma assocLookup_of_mem_nodup {α : Type} {m : List (String × α)} {k : String} {v : α}
    (hmem : (k, v) ∈ m) (hnd : (m.map Prod.fst).Nodup) :
    assocLookup m k = some v := by
  induction m with
  | nil => simp at hmem
  | cons kv m ih =>
    rw [List.map_cons] at hnd
    rcases List.mem_cons.mp hmem with heq | hmem'
    · subst heq
      rw [assocLookup, List.find?_cons_of_pos _ (by simp)]
      rfl
    · have hk : kv.1 ≠ k := by
        intro hk
        apply (List.nodup_cons.mp hnd).1
        rw [hk]
        exact List.mem_map_of_mem Prod.fst hmem'
      rw [assocLookup, List.find?_cons_of_neg _ (by simp [hk])]
      exact ih hmem' (List.nodup_cons.mp hnd).2

/-- If a workspace entry's target is recorded in `publishedVersions`, a
successful rewrite maps that entry to the recorded version — the pre-fetched
and freshly fetched registry versions are never consulted for it. -/
lemma rewriteDeps_mem (env : PublishEnv) (pv fetched : List (String × String))
    (nm val v : String) (hws : containsWorkspace val = true)
    (hpv : mapLookup pv nm = some v) :
    ∀ l : List (String × String), (nm, val) ∈ l →
      (rewriteDeps env pv fetched l).2 = true →
      (nm, v) ∈ (rewriteDeps env pv fetched l).1 := by
  intro l
  induction l with
  | nil =>
    intro h
    simp at h
  | cons hd rest ih =>
    intro hmem hok
    obtain ⟨n0, v0⟩ := hd
    rcases List.mem_cons.mp hmem with heq | hmem'
    · have h1 : nm = n0 := congrArg Prod.fst heq
      have h2 : val = v0 := congrArg Prod.snd heq
      subst h1
      subst h2
      simp only [rewriteDeps]
      rw [if_pos hws, hpv]
      exact List.mem_cons_self _ _
    · by_cases hws0 : containsWorkspace v0 = true
      · simp only [rewriteDeps] at hok ⊢
        rw [if_pos hws0] at hok ⊢
        cases hlk : mapLookup pv n0 with
        | some pv' =>
          rw [hlk] at hok
          exact List.mem_cons_of_mem _ (ih hmem' hok)
        | none =>
          rw [hlk] at hok
          cases hlk2 : mapLookup fetched n0 with
          | some fv =>
            rw [hlk2] at hok
            exact List.mem_cons_of_mem _ (ih hmem' hok)
          | none =>
            rw [hlk2] at hok
            cases hreg : env.registry n0 with
            | some dv =>
              rw [hreg] at hok
              have h : (if (decide (dv ≠ "") && decide (dv ≠ "0.0.0")) = true then
                  ((n0, dv) :: (rewriteDeps env pv fetched rest).1,
                    (rewriteDeps env pv fetched rest).2)
                else ((n0, v0) :: rest, false)).2 = true := hok
              by_cases hgood : (decide (dv ≠ "") && decide (dv ≠ "0.0.0")) = true
              · rw [if_pos hgood] at h
                show (nm, v) ∈ (if (decide (dv ≠ "") && decide (dv ≠ "0.0.0")) = true
                  then ((n0, dv) :: (rewriteDeps env pv fetched rest).1,
                    (rewriteDeps env pv fetched rest).2)
                  else ((n0, v0) :: rest, false)).1
                rw [if_pos hgood]
                exact List.mem_cons_of_mem _ (ih hmem' h)
              · rw [if_neg hgood] at h
                exact Bool.noConfusion h
            | none =>
              rw [hreg] at hok
              have h : (false : Bool) = true := hok
              exact Bool.noConfusion h
      · simp only [rewriteDeps] at hok ⊢
        rw [if_neg hws0] at hok ⊢
        exact List.mem_cons_of_mem _ (ih hmem' hok)

/-- Anatomy of a successful per-package task. -/
lemma publishOne_success (env : PublishEnv) (pv fetched : List (String × String))
    (pkg : Package) (h : (publishOne env pv fetched pkg).newVersion.isSome = true) :
    ∃ u, env.calcVersion pkg.version = some u ∧
      (publishOne env pv fetched pkg).newVersion = some u ∧
      (rewriteDeps env pv fetched pkg.json.dependencies).2 = true ∧
      (rewriteDeps env pv fetched pkg.json.devDependencies).2 = true ∧
      (rewriteDeps env pv fetched pkg.json.peerDependencies).2 = true ∧
      (publishOne env pv fetched pkg).json =
        { version := u
          dependencies := (rewriteDeps env pv fetched pkg.json.dependencies).1
          devDependencies := (rewriteDeps env pv fetched pkg.json.devDependencies).1
          peerDependencies := (rewriteDeps env pv fetched pkg.json.peerDependencies).1 } ∧
      env.publishOk pkg.name = true ∧
      (publishOne env pv fetched pkg).effects =
        [Effect.wroteManifest pkg.name (publishOne env pv fetched pkg).json,
         Effect.published pkg.name u] := by
  cases hc : env.calcVersion pkg.version with
  | none =>
    exfalso
    have hnone : (publishOne env pv fetched pkg).newVersion = none := by
      simp [publishOne, hc]
    rw [hnone] at h
    simp at h
  | some u =>
    cases hrd : (rewriteDeps env pv fetched pkg.json.dependencies).2 with
    | false =>
      exfalso
      have hnone : (publishOne env pv fetched pkg).newVersion = none := by
        simp [publishOne, hc, hrd]
      rw [hnone] at h
      simp at h
    | true =>
      cases hrv : (rewriteDeps env pv fetched pkg.json.devDependencies).2 with
      | false =>
        exfalso
        have hnone : (publishOne env pv fetched pkg).newVersion = none := by
          simp [publishOne, hc, hrd, hrv]
        rw [hnone] at h
        simp at h
      | true =>
        cases hrp : (rewriteDeps env pv fetched pkg.json.peerDependencies).2 with
        | false =>
          exfalso
          have hnone : (publishOne env pv fetched pkg).newVersion = none := by
            simp [publishOne, hc, hrd, hrv, hrp]
          rw [hnone] at h
          simp at h
        | true =>
          cases hpok : env.publishOk pkg.name with
          | false =>
            exfalso
            have hnone : (publishOne env pv fetched pkg).newVersion = none := by
              simp [publishOne, hc, hrd, hrv, hrp, hpok]
            rw [hnone] at h
            simp at h
          | true =>
            have hkey : publishOne env pv fetched pkg =
                { json :=
                    { version := u
                      dependencies := (rewriteDeps env pv fetched pkg.json.dependencies).1
                      devDependencies :=
                        (rewriteDeps env pv fetched pkg.json.devDependencies).1
                      peerDependencies :=
                        (rewriteDeps env pv fetched pkg.json.peerDependencies).1 }
                  newVersion := some u
                  effects :=
                    [Effect.wroteManifest pkg.name
                      { version := u
                        dependencies := (rewriteDeps env pv fetched pkg.json.dependencies).1
                        devDependencies :=
                          (rewriteDeps env pv fetched pkg.json.devDependencies).1
                        peerDependencies :=
                          (rewriteDeps env pv fetched pkg.json.peerDependencies).1 },
                     Effect.published pkg.name u] } := by
              simp [publishOne, hc, hrd, hrv, hrp, hpok]
            rw [hkey]
            exact ⟨u, rfl, rfl, rfl, rfl, rfl, rfl, rfl, rfl⟩


lemma manifests_fold_fresh (a : String) :
    ∀ (l : List (Package × PkgOutcome)) (ms : List (String × PkgJson)),
      (∀ po ∈ l, po.1.name ≠ a) →
      jsonLookup (l.foldl (fun ms po => manifestInsert ms po.1.name po.2.json) ms) a =
        jsonLookup ms a := by
  intro l
  induction l with
  | nil =>
    intro ms _
    rfl
  | cons po l ih =>
    intro ms hfresh
    rw [List.foldl_cons, ih _ (fun q hq => hfresh q (List.mem_cons_of_mem _ hq))]
    show assocLookup (assocInsert ms po.1.name po.2.json) a = assocLookup ms a
    rw [assocLookup_insert,
      if_neg (fun he => hfresh po (List.mem_cons_self _ _) he.symm)]

lemma manifests_fold_set (A : Package) (f : Package → PkgOutcome) :
    ∀ (b : List Package) (ms : List (String × PkgJson)),
      (b.map Package.name).Nodup → A ∈ b →
      jsonLookup ((b.zip (b.map f)).foldl
          (fun ms po => manifestInsert ms po.1.name po.2.json) ms) A.name =
        some (f A).json := by
  intro b
  induction b with
  | nil =>
    intro ms _ h
    simp at h
  | cons p b ih =>
    intro ms hnd hA
    rw [List.map_cons] at hnd
    rw [List.map_cons, List.zip_cons_cons, List.foldl_cons]
    rcases List.mem_cons.mp hA with rfl | hA'
    · have hfresh : ∀ po ∈ b.zip (b.map f), po.1.name ≠ A.name := by
        intro po hpo hn
        apply (List.nodup_cons.mp hnd).1
        rw [← hn]
        exact List.mem_map_of_mem Package.name (List.of_mem_zip hpo).1
      rw [manifests_fold_fresh A.name _ _ hfresh]
      show assocLookup (assocInsert ms A.name (f A).json) A.name = some (f A).json
      rw [assocLookup_insert, if_pos rfl]
    · exact ih _ (List.nodup_cons.mp hnd).2 hA'

lemma runAux_manifests_fresh (env : PublishEnv) (fetched : List (String × String)) :
    ∀ (bs : List (List Package)) (s : RunState) (a : String),
      (∀ p ∈ bs.flatten, p.name ≠ a) →
      jsonLookup (runBatchesAux env fetched bs s).1.manifests a =
        jsonLookup s.manifests a := by
  intro bs
  induction bs with
  | nil =>
    intro s a _
    rfl
  | cons b bs ih =>
    intro s a hfresh
    have hbatch : jsonLookup (runBatch env fetched s b).1.manifests a =
        jsonLookup s.manifests a := by
      rw [runBatch_manifests]
      apply manifests_fold_fresh
      intro po hpo
      exact hfresh po.1 (by
        rw [List.flatten_cons]
        exact List.mem_append_left _ (List.of_mem_zip hpo).1)
    simp only [runBatchesAux]
    by_cases hrb : (runBatch env fetched s b).2 = true
    · rw [if_pos hrb]
      rw [ih _ a (fun p hp => hfresh p (by
        rw [List.flatten_cons]
        exact List.mem_append_right _ hp))]
      exact hbatch
    · rw [if_neg hrb]
      exact hbatch

lemma batchRecs_keys_nodup (env : PublishEnv) (fetched : List (String × String))
    (s : RunState) (batch : List Package)
    (hndb : (batch.map Package.name).Nodup) :
    ((batchRecs env fetched s batch).map Prod.fst).Nodup := by
  rw [batchRecs]
  exact (batchRecs_keys_sublist env fetched s batch).nodup hndb

/-- If a dependency target's version is present in `publishedVersions` when a
successful tail of the run starts — and no package of that tail re-publishes
the target — then every tail package's final manifest carries exactly that
version for the target's workspace entries. -/
lemma runAux_dep_rewrite (env : PublishEnv) (fetched : List (String × String)) :
    ∀ (bs : List (List Package)) (s : RunState) (nm v : String),
      (runBatchesAux env fetched bs s).2 = true →
      ((bs.flatten).map Package.name).Nodup →
      (∀ p ∈ bs.flatten, p.name ≠ nm) →
      mapLookup s.publishedVersions nm = some v →
      ∀ (i : Nat) (hi : i < bs.length) (A : Package) (val : String) (c : DepCat),
        A ∈ bs.get ⟨i, hi⟩ → (nm, val) ∈ A.json.cat c → containsWorkspace val = true →
        ∃ jA, jsonLookup (runBatchesAux env fetched bs s).1.manifests A.name = some jA ∧
          (nm, v) ∈ jA.cat c := by
  intro bs
  induction bs with
  | nil =>
    intro s nm v _ _ _ _ i hi
    simp at hi
  | cons b rest ih =>
    intro s nm v hok hnd hfresh hpv i hi A val c hA hdep hws
    have hrb : (runBatch env fetched s b).2 = true := by
      by_contra hfail
      rw [runAux_fail_cons env fetched b rest s (Bool.eq_false_iff.mpr hfail)] at hok
      simp at hok
    have hres : runBatchesAux env fetched (b :: rest) s =
        runBatchesAux env fetched rest (runBatch env fetched s b).1 := by
      simp only [runBatchesAux]
      rw [if_pos hrb]
    rw [hres] at hok ⊢
    have hnd' : ((b.map Package.name) ++ (rest.flatten.map Package.name)).Nodup := by
      rw [← List.map_append, ← List.flatten_cons]
      exact hnd
    obtain ⟨hndb, hndrest, hdisj⟩ := List.nodup_append.mp hnd'
    cases i with
    | zero =>
      have hAb : A ∈ b := hA
      have hAfresh : ∀ p ∈ rest.flatten, p.name ≠ A.name := by
        intro p hp heq
        exact hdisj (List.mem_map_of_mem Package.name hAb)
          (heq ▸ List.mem_map_of_mem Package.name hp)
      rw [runAux_manifests_fresh env fetched rest _ A.name hAfresh, runBatch_manifests]
      have hsome : (publishOne env s.publishedVersions fetched A).newVersion.isSome = true :=
        (runBatch_ok_iff env fetched s b).mp hrb A hAb
      refine ⟨(publishOne env s.publishedVersions fetched A).json,
        manifests_fold_set A _ b s.manifests hndb hAb, ?_⟩
      obtain ⟨u, hcu, hnv, hrd, hrv, hrp, hjson, hpok, heff⟩ :=
        publishOne_success env s.publishedVersions fetched A hsome
      rw [hjson]
      cases c with
      | deps =>
        exact rewriteDeps_mem env s.publishedVersions fetched nm val v hws hpv _ hdep hrd
      | dev =>
        exact rewriteDeps_mem env s.publishedVersions fetched nm val v hws hpv _ hdep hrv
      | peer =>
        exact rewriteDeps_mem env s.publishedVersions fetched nm val v hws hpv _ hdep hrp
    | succ i' =>
      have hA' : A ∈ rest.get ⟨i', Nat.lt_of_succ_lt_succ hi⟩ := hA
      have hpv' : mapLookup (runBatch env fetched s b).1.publishedVersions nm = some v := by
        obtain ⟨_, hpveq⟩ := runBatch_ok_state env fetched s b hrb
        rw [hpveq]
        have hkeys : ∀ r ∈ batchRecs env fetched s b, r.1 ≠ nm := by
          intro r hr
          obtain ⟨p, hp, hname⟩ := batchRecs_keys env fetched s b r hr
          rw [hname]
          exact hfresh p (by
            rw [List.flatten_cons]
            exact List.mem_append_left _ hp)
        show assocLookup ((batchRecs env fetched s b).foldl
          (fun m r => assocInsert m r.1 r.2) s.publishedVersions) nm = some v
        rw [assocLookup_foldl_of_fresh _ nm hkeys]
        exact hpv
      exact ih (runBatch env fetched s b).1 nm v hok hndrest
        (fun p hp => hfresh p (by
          rw [List.flatten_cons]
          exact List.mem_append_right _ hp))
        hpv' i' (Nat.lt_of_succ_lt_succ hi) A val c hA' hdep hws

/-- Cross-batch precedence of the run's own publish records: for a successful
run, a package `A` of a later batch whose manifest declares a workspace
dependency on a package `B` of an earlier batch ends up (in every category)
with exactly the version recorded for `B` in this run's `published` list. -/
lemma runAux_cross_batch (env : PublishEnv) (fetched : List (String × String)) :
    ∀ (bs : List (List Package)) (s : RunState),
      (runBatchesAux env fetched bs s).2 = true →
      ((bs.flatten).map Package.name).Nodup →
      (∀ p ∈ bs.flatten, ∀ kv ∈ s.published, kv.1 ≠ p.name) →
      ∀ (i j : Nat) (hi : i < bs.length) (hj : j < i) (A B : Package) (val : String)
        (c : DepCat),
        A ∈ bs.get ⟨i, hi⟩ → B ∈ bs.get ⟨j, Nat.lt_trans hj hi⟩ →
        (B.name, val) ∈ A.json.cat c → containsWorkspace val = true →
        ∃ vB, assocLookup (runBatchesAux env fetched bs s).1.published B.name = some vB ∧
          ∃ jA, jsonLookup (runBatchesAux env fetched bs s).1.manifests A.name = some jA ∧
            (B.name, vB) ∈ jA.cat c := by
  intro bs
  induction bs with
  | nil =>
    intro s _ _ _ i j hi
    simp at hi
  | cons b rest ih =>
    intro s hok hnd hpubfresh i j hi hj A B val c hA hB hdep hws
    have hrb : (runBatch env fetched s b).2 = true := by
      by_contra hfail
      rw [runAux_fail_cons env fetched b rest s (Bool.eq_false_iff.mpr hfail)] at hok
      simp at hok
    have hres : runBatchesAux env fetched (b :: rest) s =
        runBatchesAux env fetched rest (runBatch env fetched s b).1 := by
      simp only [runBatchesAux]
      rw [if_pos hrb]
    rw [hres] at hok ⊢
    have hnd' : ((b.map Package.name) ++ (rest.flatten.map Package.name)).Nodup := by
      rw [← List.map_append, ← List.flatten_cons]
      exact hnd
    obtain ⟨hndb, hndrest, hdisj⟩ := List.nodup_append.mp hnd'
    obtain ⟨hpubeq, hpveq⟩ := runBatch_ok_state env fetched s b hrb
    cases j with
    | zero =>
      -- B is in the head batch; i = i' + 1 since j < i.
      cases i with
      | zero => exact absurd hj (by omega)
      | succ i' =>
        have hBb : B ∈ b := hB
        have hA' : A ∈ rest.get ⟨i', Nat.lt_of_succ_lt_succ hi⟩ := hA
        have hsomeB : (publishOne env s.publishedVersions fetched B).newVersion.isSome = true :=
          (runBatch_ok_iff env fetched s b).mp hrb B hBb
        obtain ⟨vB, hnvB⟩ := Option.isSome_iff_exists.mp hsomeB
        have hrecB : (B.name, vB) ∈ batchRecs env fetched s b :=
          batchRecs_mem env fetched s b B vB hBb hnvB
        have hBfresh : ∀ p ∈ rest.flatten, p.name ≠ B.name := by
          intro p hp heq
          exact hdisj (List.mem_map_of_mem Package.name hBb)
            (heq ▸ List.mem_map_of_mem Package.name hp)
        refine ⟨vB, ?_, ?_⟩
        · -- published lookup
          obtain ⟨ext2, heq2, hk2⟩ := runAux_published_ext env fetched rest
            (runBatch env fetched s b).1
          rw [heq2, hpubeq, List.append_assoc]
          rw [assocLookup_append_fresh (fun kv hkv heq =>
            hpubfresh B (by
              rw [List.flatten_cons]
              exact List.mem_append_left _ hBb) kv hkv heq)]
          apply assocLookup_append_left
          exact assocLookup_of_mem_nodup hrecB
            (batchRecs_keys_nodup env fetched s b hndb)
        · -- manifest of A via the tail run
          have hpvB : mapLookup (runBatch env fetched s b).1.publishedVersions B.name =
              some vB := by
            rw [hpveq]
            show assocLookup ((batchRecs env fetched s b).foldl
              (fun m r => assocInsert m r.1 r.2) s.publishedVersions) B.name = some vB
            exact assocLookup_foldl_of_mem _ B.name vB hrecB
              (batchRecs_keys_nodup env fetched s b hndb) _
          exact runAux_dep_rewrite env fetched rest (runBatch env fetched s b).1
            B.name vB hok hndrest hBfresh hpvB i' (Nat.lt_of_succ_lt_succ hi)
            A val c hA' hdep hws
    | succ j' =>
      cases i with
      | zero => exact absurd hj (by omega)
      | succ i' =>
        have hA' : A ∈ rest.get ⟨i', Nat.lt_of_succ_lt_succ hi⟩ := hA
        have hB' : B ∈ rest.get ⟨j', Nat.lt_trans (Nat.lt_of_succ_lt_succ hj)
          (Nat.lt_of_succ_lt_succ hi)⟩ := hB
        have hpubfresh' : ∀ p ∈ rest.flatten,
            ∀ kv ∈ (runBatch env fetched s b).1.published, kv.1 ≠ p.name := by
          intro p hp kv hkv
          rw [hpubeq] at hkv
          rcases List.mem_append.mp hkv with hkv | hkv
          · exact hpubfresh p (by
              rw [List.flatten_cons]
              exact List.mem_append_right _ hp) kv hkv
          · obtain ⟨q, hq, hname⟩ := batchRecs_keys env fetched s b kv hkv
            rw [hname]
            intro heq
            exact hdisj (List.mem_map_of_mem Package.name hq)
              (heq ▸ List.mem_map_of_mem Package.name hp)
        have hgot := ih (runBatch env fetched s b).1 hok hndrest hpubfresh'
          i' j' (Nat.lt_of_succ_lt_succ hi) (Nat.lt_of_succ_lt_succ hj)
          A B val c hA' ?_ hdep hws
        · exact hgot
        · exact hB'

/-! ## C3 — run publish records take precedence in dependency rewriting -/

/-- C3: during a successful batched publish, a package `A` of batch `i` whose
manifest declares a workspace dependency on a package `B` of an earlier batch
`j < i` ends up, in the run's in-memory manifests, with exactly the version
recorded for `B` in the run's published summary — for every registry oracle,
so the pre-fetched or freshly fetched registry version is never what lands in
`A`'s manifest for `B`. -/
theorem claim3_publish_record_precedence (env : PublishEnv) (allPkgs : List Package)
    (batches : List (List Package)) (recs : List (String × String))
    (i j : Nat) (A B : Package) (val : String) (c : DepCat)
    (hnd : ((batches.flatten).map Package.name).Nodup)
    (hi : i < batches.length) (hj : j < i)
    (hA : A ∈ batches.get ⟨i, hi⟩) (hB : B ∈ batches.get ⟨j, Nat.lt_trans hj hi⟩)
    (hdep : (B.name, val) ∈ A.json.cat c) (hws : containsWorkspace val = true)
    (hok : (publishBatches env allPkgs batches).summary = some recs) :
    ∃ vB, mapLookup recs B.name = some vB ∧
      ∃ jA, jsonLookup (publishBatches env allPkgs batches).manifests A.name = some jA ∧
        (B.name, vB) ∈ jA.cat c := by
  simp only [publishBatches] at hok
  by_cases hrun : (runBatchesAux env (runFetched env allPkgs batches) batches {}).2 = true
  · rw [if_pos hrun] at hok
    have hrecs : recs =
        (runBatchesAux env (runFetched env allPkgs batches) batches {}).1.published := by
      injection hok with h
      exact h.symm
    obtain ⟨vB, hvB, jA, hjA, hmem⟩ := runAux_cross_batch env
      (runFetched env allPkgs batches) batches {} hrun hnd
      (by
        intro p _ kv hkv
        simp at hkv)
      i j hi hj A B val c hA hB hdep hws
    refine ⟨vB, ?_, jA, hjA, hmem⟩
    rw [hrecs]
    exact hvB
  · rw [if_neg hrun] at hok
    simp at hok

/-- Witness for C3: `B` publishes as `0.5.1` in batch 0; `A`'s rewritten
manifest exists in the run state. -/
theorem claim3_publish_record_precedence_witness :
    (jsonLookup (publishBatches wsEnvC3 [wsPkgA, wsPkgB]
      [[wsPkgB], [wsPkgA]]).manifests "A").isSome = true := by
  obtain ⟨vB, hvB, jA, hjA, hmem⟩ := claim3_publish_record_precedence wsEnvC3
    [wsPkgA, wsPkgB] [[wsPkgB], [wsPkgA]] [("B", "0.5.1"), ("A", "2.0.1")]
    1 0 wsPkgA wsPkgB "workspace:*" DepCat.deps
    (by decide) (by decide) (by decide) (by decide) (by decide) (by decide)
    (by decide) rfl
  have hA : jsonLookup (publishBatches wsEnvC3 [wsPkgA, wsPkgB]
      [[wsPkgB], [wsPkgA]]).manifests "A" = some jA := hjA
  rw [hA]
  rfl

/-! ## C5 — failure behaviour of the batched publisher -/

/-- Every package of a fully successful run prefix has a publish effect in the
accumulated log. -/
lemma runAux_ok_published_effects (env : PublishEnv) (fetched : List (String × String)) :
    ∀ (bs : List (List Package)) (s : RunState),
      (runBatchesAux env fetched bs s).2 = true →
      ∀ b ∈ bs, ∀ p ∈ b, ∃ v,
        Effect.published p.name v ∈ (runBatchesAux env fetched bs s).1.effects := by
  intro bs
  induction bs with
  | nil =>
    intro s _ b hb
    simp at hb
  | cons b0 rest ih =>
    intro s hok b hb p hp
    have hrb : (runBatch env fetched s b0).2 = true := by
      by_contra hfail
      rw [runAux_fail_cons env fetched b0 rest s (Bool.eq_false_iff.mpr hfail)] at hok
      simp at hok
    have hres : runBatchesAux env fetched (b0 :: rest) s =
        runBatchesAux env fetched rest (runBatch env fetched s b0).1 := by
      simp only [runBatchesAux]
      rw [if_pos hrb]
    rw [hres] at hok ⊢
    rcases List.mem_cons.mp hb with rfl | hb'
    · have hsome := (runBatch_ok_iff env fetched s b).mp hrb p hp
      obtain ⟨u, _, _, _, _, _, _, _, heff⟩ :=
        publishOne_success env s.publishedVersions fetched p hsome
      refine ⟨u, ?_⟩
      obtain ⟨ext, hext⟩ := runAux_effects_ext env fetched rest (runBatch env fetched s b).1
      rw [hext, runBatch_effects]
      apply List.mem_append_left
      apply List.mem_append_right
      apply List.mem_flatMap.mpr
      refine ⟨publishOne env s.publishedVersions fetched p, List.mem_map_of_mem _ hp, ?_⟩
      rw [heff]
      exact List.mem_cons_of_mem _ (List.mem_cons_self _ _)
    · exact ih (runBatch env fetched s b0).1 hok b hb' p hp

/-- C5 counterexample: in the batch `[Ok, Bad]` the package `Ok` completes its
publish (the effect is in the log) while `Bad`'s publish is rejected; the
claim says the returned summary lists `Ok`, but `publishBatches` returns no
summary at all (`none` — the exception propagates), and no work of the later
batch (`After`) ever happens. -/
theorem claim5_counterexample :
    (publishBatches failEnvC5 [] [[okPkgC5, badPkgC5], [afterPkgC5]]).summary = none ∧
    Effect.published "Ok" "9.9.9" ∈
      (publishBatches failEnvC5 [] [[okPkgC5, badPkgC5], [afterPkgC5]]).effects ∧
    (publishBatches failEnvC5 [] [[okPkgC5, badPkgC5], [afterPkgC5]]).effects =
      [Effect.wroteManifest "Ok" { version := "9.9.9" },
       Effect.published "Ok" "9.9.9",
       Effect.wroteManifest "Bad" { version := "9.9.9" }] := by
  refine ⟨rfl, ?_, rfl⟩
  decide

/-- C5 (amended): when a batch fails, no later batch is started (the final
effect log is exactly the log at the end of the failing batch), nothing is
rolled back — the publish effects of the earlier batches and of the failing
batch's members whose own task completed all remain in the log — but no
published-packages summary is returned at all: the function throws
(`summary = none`), so even packages that completed within the failing batch
are listed nowhere in a returned value. -/
theorem claim5_failure_no_rollback (env : PublishEnv) (allPkgs : List Package)
    (pre post : List (List Package)) (bad : List Package)
    (hpre : (runBatchesAux env (runFetched env allPkgs (pre ++ bad :: post))
      pre {}).2 = true)
    (hbad : (runBatch env (runFetched env allPkgs (pre ++ bad :: post))
      (runBatchesAux env (runFetched env allPkgs (pre ++ bad :: post)) pre {}).1
      bad).2 = false) :
    (publishBatches env allPkgs (pre ++ bad :: post)).summary = none ∧
      (publishBatches env allPkgs (pre ++ bad :: post)).effects =
        (runBatch env (runFetched env allPkgs (pre ++ bad :: post))
          (runBatchesAux env (runFetched env allPkgs (pre ++ bad :: post)) pre {}).1
          bad).1.effects ∧
      (∀ b ∈ pre, ∀ p ∈ b, ∃ v, Effect.published p.name v ∈
        (publishBatches env allPkgs (pre ++ bad :: post)).effects) ∧
      (∀ p ∈ bad, ∀ v,
        (publishOne env
          (runBatchesAux env (runFetched env allPkgs (pre ++ bad :: post))
            pre {}).1.publishedVersions
          (runFetched env allPkgs (pre ++ bad :: post)) p).newVersion = some v →
        Effect.published p.name v ∈
          (publishBatches env allPkgs (pre ++ bad :: post)).effects) := by
  have hrun : runBatchesAux env (runFetched env allPkgs (pre ++ bad :: post))
      (pre ++ bad :: post) {} =
      ((runBatch env (runFetched env allPkgs (pre ++ bad :: post))
        (runBatchesAux env (runFetched env allPkgs (pre ++ bad :: post)) pre {}).1
        bad).1, false) := by
    rw [runAux_append_ok env _ pre (bad :: post) {} hpre,
      runAux_fail_cons env _ bad post _ hbad]
  have hsummary : (publishBatches env allPkgs (pre ++ bad :: post)).summary = none := by
    simp only [publishBatches]
    rw [hrun]
    simp
  have heffeq : (publishBatches env allPkgs (pre ++ bad :: post)).effects =
      (runBatch env (runFetched env allPkgs (pre ++ bad :: post))
        (runBatchesAux env (runFetched env allPkgs (pre ++ bad :: post)) pre {}).1
        bad).1.effects := by
    simp only [publishBatches]
    rw [hrun]
  refine ⟨hsummary, heffeq, ?_, ?_⟩
  · intro b hb p hp
    obtain ⟨v, hv⟩ := runAux_ok_published_effects env
      (runFetched env allPkgs (pre ++ bad :: post)) pre {} hpre b hb p hp
    refine ⟨v, ?_⟩
    rw [heffeq, runBatch_effects]
    exact List.mem_append_left _ hv
  · intro p hp v hnv
    have hsome : (publishOne env
        (runBatchesAux env (runFetched env allPkgs (pre ++ bad :: post))
          pre {}).1.publishedVersions
        (runFetched env allPkgs (pre ++ bad :: post)) p).newVersion.isSome = true := by
      rw [hnv]
      rfl
    obtain ⟨u, _, hnv', _, _, _, _, _, heff⟩ := publishOne_success env _ _ p hsome
    have huv : u = v := by
      rw [hnv'] at hnv
      injection hnv
    rw [heffeq, runBatch_effects]
    apply List.mem_append_right
    apply List.mem_flatMap.mpr
    refine ⟨publishOne env
      (runBatchesAux env (runFetched env allPkgs (pre ++ bad :: post))
        pre {}).1.publishedVersions
      (runFetched env allPkgs (pre ++ bad :: post)) p, List.mem_map_of_mem _ hp, ?_⟩
    rw [heff, huv]
    exact List.mem_cons_of_mem _ (List.mem_cons_self _ _)

/-- Witness for C5's amended theorem: batch `[Pre]` succeeds, batch
`[Ok, Bad]` fails, batch `[After]` never runs; no summary is returned. -/
theorem claim5_failure_no_rollback_witness :
    (publishBatches failEnvC5 []
      ([[preOkPkgC5]] ++ [okPkgC5, badPkgC5] :: [[afterPkgC5]])).summary = none :=
  (claim5_failure_no_rollback failEnvC5 [] [[preOkPkgC5]] [[afterPkgC5]]
    [okPkgC5, badPkgC5] (by decide) (by decide)).1

/-! ## C1/C2 — batch scheduler: correctness on acyclic sets, error on cycles -/

lemma collect_aux (l : List Package) (acc1 : List Package) (accf : String → Int)
    (inDeg : String → Int)
    (hagree : ∀ p ∈ l, accf p.name = inDeg p.name)
    (hnd : (l.map Package.name).Nodup) :
    l.foldl
      (fun (acc : List Package × (String → Int)) (p : Package) =>
        if acc.2 p.name == 0 then
          (acc.1 ++ [p], fun s => if s == p.name then -1 else acc.2 s)
        else acc)
      (acc1, accf)
    = (acc1 ++ l.filter (fun p => inDeg p.name == 0),
       fun s => if (l.filter (fun p => inDeg p.name == 0)).any (fun p => p.name == s)
                then -1 else accf s) := by
  induction l generalizing acc1 accf with
  | nil =>
    simp only [List.foldl_nil, List.filter_nil, List.append_nil, List.any_nil,
      Bool.false_eq_true, if_false]
  | cons p l ih =>
    have hpn : accf p.name = inDeg p.name := hagree p (List.mem_cons_self p l)
    simp only [List.map_cons, List.nodup_cons] at hnd
    simp only [List.foldl_cons]
    by_cases hz : inDeg p.name = 0
    · have hcond : (accf p.name == 0) = true := by rw [hpn, hz]; rfl
      simp only [hcond, if_true]
      have hagree' : ∀ q ∈ l, (fun s => if s == p.name then (-1 : Int) else accf s) q.name
          = inDeg q.name := by
        intro q hq
        have hqp : (q.name == p.name) = false :=
          beq_eq_false_iff_ne.mpr (fun h => hnd.1 (h ▸ List.mem_map_of_mem _ hq))
        simp only [hqp, if_false]
        exact hagree q (List.mem_cons_of_mem _ hq)
      rw [ih _ _ hagree' hnd.2]
      have hfp : (p :: l).filter (fun p => inDeg p.name == 0)
          = p :: l.filter (fun p => inDeg p.name == 0) := by
        rw [List.filter_cons_of_pos]
        rw [hz]; rfl
      rw [hfp]
      refine congrArg₂ Prod.mk ?_ (funext fun s => ?_)
      · simp
      · simp only [List.any_cons]
        by_cases hs : p.name = s
        · have h1 : (p.name == s) = true := beq_iff_eq.mpr hs
          have h2 : (s == p.name) = true := beq_iff_eq.mpr hs.symm
          simp only [h1, Bool.true_or, if_true, h2]
          match hany : (l.filter (fun p => inDeg p.name == 0)).any (fun p => p.name == s) with
          | true => simp
          | false => simp
        · have h1 : (p.name == s) = false := beq_eq_false_iff_ne.mpr hs
          have h2 : (s == p.name) = false := beq_eq_false_iff_ne.mpr (Ne.symm hs)
          simp only [h1, Bool.false_or, h2, Bool.false_eq_true, if_false]
    · have hcond : (accf p.name == 0) = false := by
        rw [hpn]
        exact beq_eq_false_iff_ne.mpr hz
      simp only [hcond, Bool.false_eq_true, if_false]
      have hfp : (p :: l).filter (fun p => inDeg p.name == 0)
          = l.filter (fun p => inDeg p.name == 0) := by
        rw [List.filter_cons_of_neg]
        rw [beq_eq_false_iff_ne.mpr hz]
        exact Bool.false_ne_true
      rw [hfp, ih _ _ (fun q hq => hagree q (List.mem_cons_of_mem _ hq)) hnd.2]

lemma collectBatch_fst (pkgs : List Package) (inDeg : String → Int)
    (hnd : (pkgNames pkgs).Nodup) :
    (collectBatch pkgs inDeg).1 = pkgs.filter (fun p => inDeg p.name == 0) := by
  unfold collectBatch
  rw [collect_aux pkgs [] inDeg inDeg (fun _ _ => rfl) hnd]
  simp

lemma collectBatch_snd (pkgs : List Package) (inDeg : String → Int)
    (hnd : (pkgNames pkgs).Nodup) (s : String) :
    (collectBatch pkgs inDeg).2 s =
      if (pkgs.filter (fun p => inDeg p.name == 0)).any (fun p => p.name == s)
      then -1 else inDeg s := by
  unfold collectBatch
  rw [collect_aux pkgs [] inDeg inDeg (fun _ _ => rfl) hnd]


lemma decFold_eval (T : List String) (d : String → Int) (s : String) :
    (T.foldl decStep d) s =
      if 0 < d s then
        (if (T.count s : Int) ≤ d s then d s - T.count s else 0)
      else d s := by
  induction T generalizing d with
  | nil =>
    simp only [List.foldl_nil, List.count_nil, Nat.cast_zero, Int.sub_zero]
    split
    · split
      · rfl
      · omega
    · rfl
  | cons t T ih =>
    rw [List.foldl_cons, ih (decStep d t)]
    by_cases ht : t = s
    · subst ht
      have hc : (t :: T).count t = T.count t + 1 := by
        rw [List.count_cons]
        simp
      rw [hc]
      by_cases hg : 0 < d t
      · have hds : decStep d t t = d t - 1 := by
          unfold decStep
          rw [if_pos hg]
          simp
        rw [hds]
        push_cast
        split_ifs <;> omega
      · have hds : decStep d t t = d t := by
          unfold decStep
          rw [if_neg hg]
        rw [hds]
        split_ifs <;> omega
    · have hc : (t :: T).count s = T.count s := by
        rw [List.count_cons]
        rw [beq_eq_false_iff_ne.mpr ht]
        simp
      have hds : decStep d t s = d s := by
        unfold decStep
        split
        · simp only [beq_eq_false_iff_ne.mpr (Ne.symm ht), Bool.false_eq_true, if_false]
        · rfl
      rw [hc, hds]

lemma foldl_inner_flat (dep : String → List String) (batch : List Package)
    (d : String → Int) :
    batch.foldl (fun d p => (dep p.name).foldl decStep d) d
      = (batch.flatMap (fun p => dep p.name)).foldl decStep d := by
  induction batch generalizing d with
  | nil => rfl
  | cons p batch ih => simp [List.flatMap_cons, List.foldl_append, ih]

lemma decBatch_eval (dep : String → List String) (batch : List Package)
    (d : String → Int) (s : String) :
    decBatch dep batch d s =
      if 0 < d s then
        (if ((batch.flatMap (fun p => dep p.name)).count s : Int) ≤ d s
         then d s - (batch.flatMap (fun p => dep p.name)).count s else 0)
      else d s := by
  unfold decBatch
  rw [foldl_inner_flat, decFold_eval]

lemma count_flatMap_eq {α β : Type} [BEq β] (l : List α) (f : α → List β) (b : β) :
    (l.flatMap f).count b = (l.map (fun a => (f a).count b)).sum := by
  induction l with
  | nil => rfl
  | cons a l ih => simp [List.flatMap_cons, List.count_append, ih]

lemma count_filterMap_if (deps : List String) (s n : String) :
    (deps.filterMap (fun d => if d == s then some n else none)).count n
      = deps.count s := by
  induction deps with
  | nil => rfl
  | cons d deps ih =>
    by_cases h : d = s
    · subst h
      have hstep : (d :: deps).filterMap (fun d1 => if d1 == d then some n else none)
          = n :: deps.filterMap (fun d1 => if d1 == d then some n else none) := by
        rw [List.filterMap_cons]
        simp
      rw [hstep, List.count_cons, List.count_cons, ih]
      simp
    · have hstep : (d :: deps).filterMap (fun d1 => if d1 == s then some n else none)
          = deps.filterMap (fun d1 => if d1 == s then some n else none) := by
        rw [List.filterMap_cons]
        simp [beq_eq_false_iff_ne.mpr h]
      rw [hstep, List.count_cons, ih, beq_eq_false_iff_ne.mpr h]
      simp

lemma count_filterMap_if_ne (deps : List String) (s n m : String) (h : m ≠ n) :
    (deps.filterMap (fun d => if d == s then some n else none)).count m = 0 := by
  rw [List.count_eq_zero]
  intro hm
  obtain ⟨d, _, hdeq⟩ := List.mem_filterMap.mp hm
  by_cases hds : (d == s) = true
  · rw [if_pos hds] at hdeq
    exact h (Option.some.inj hdeq).symm
  · rw [if_neg hds] at hdeq
    exact Option.noConfusion hdeq

lemma name_inj (pkgs : List Package) (hnd : (pkgNames pkgs).Nodup)
    {p q : Package} (hp : p ∈ pkgs) (hq : q ∈ pkgs) (h : p.name = q.name) : p = q :=
  List.inj_on_of_nodup_map hnd hp hq h

lemma sum_single_name (pkgs : List Package) (hnd : (pkgNames pkgs).Nodup)
    (q : Package) (hq : q ∈ pkgs) (g : Package → Nat) :
    (pkgs.map (fun r => if r.name = q.name then g r else 0)).sum = g q := by
  induction pkgs with
  | nil => exact absurd hq (List.not_mem_nil q)
  | cons r l ih =>
    rw [List.map_cons, List.sum_cons]
    simp only [pkgNames, List.map_cons, List.nodup_cons] at hnd
    by_cases hr : r.name = q.name
    · have hrq : r = q := by
        rcases List.mem_cons.mp hq with h | h
        · exact h ▸ rfl
        · exact absurd (hr ▸ List.mem_map_of_mem Package.name h) hnd.1
      rw [if_pos hr]
      have hz : (l.map (fun r => if r.name = q.name then g r else 0)).sum = 0 := by
        apply List.sum_eq_zero
        intro x hx
        obtain ⟨y, hy, hyx⟩ := List.mem_map.mp hx
        have hyq : y.name ≠ q.name := fun hco =>
          hnd.1 (by rw [← hrq] at hco; exact hco ▸ List.mem_map_of_mem Package.name hy)
        rw [if_neg hyq] at hyx
        exact hyx.symm
      rw [hz, hrq]
      omega
    · have hql : q ∈ l := by
        rcases List.mem_cons.mp hq with h | h
        · exact absurd (h ▸ rfl : r.name = q.name) hr
        · exact h
      rw [if_neg hr, ih hnd.2 hql]
      omega

lemma count_dependedBy (pkgs : List Package) (hnd : (pkgNames pkgs).Nodup)
    (q : Package) (hq : q ∈ pkgs) (s : String) :
    (dependedByMap pkgs s).count q.name = (internalDeps pkgs q).count s := by
  unfold dependedByMap
  rw [count_flatMap_eq]
  have hcong : pkgs.map
        (fun p => ((internalDeps pkgs p).filterMap
          (fun d => if d == s then some p.name else none)).count q.name)
      = pkgs.map (fun p => if p.name = q.name then (internalDeps pkgs p).count s else 0) := by
    apply List.map_congr_left
    intro p _
    by_cases h : p.name = q.name
    · rw [if_pos h, h, count_filterMap_if]
    · rw [if_neg h, count_filterMap_if_ne _ _ _ _ (Ne.symm h)]
  rw [hcong, sum_single_name pkgs hnd q hq]


lemma contains_pkgNames (l : List Package) (s : String) :
    (pkgNames l).contains s = l.any (fun q => q.name == s) := by
  induction l with
  | nil => rfl
  | cons p l ih =>
    simp only [pkgNames, List.map_cons, List.contains_cons, List.any_cons] at *
    rw [ih]
    by_cases h : s = p.name
    · rw [beq_iff_eq.mpr h, beq_iff_eq.mpr h.symm]
    · rw [beq_eq_false_iff_ne.mpr h, beq_eq_false_iff_ne.mpr (Ne.symm h)]

lemma countP_or_disjoint (l : List String) (p q : String → Bool)
    (h : ∀ d ∈ l, ¬(p d = true ∧ q d = true)) :
    l.countP (fun d => p d || q d) = l.countP p + l.countP q := by
  induction l with
  | nil => rfl
  | cons d l ih =>
    rw [List.countP_cons, List.countP_cons, List.countP_cons,
      ih (fun x hx => h x (List.mem_cons_of_mem _ hx))]
    have hd := h d (List.mem_cons_self d l)
    cases hp : p d <;> cases hq : q d <;> simp [hp, hq] at hd ⊢ <;> omega

lemma sum_count_eq_countP (ks l : List String) (hk : ks.Nodup) :
    (ks.map (fun k => l.count k)).sum = l.countP (fun d => ks.contains d) := by
  induction ks with
  | nil =>
    simp only [List.map_nil, List.sum_nil]
    rw [List.countP_eq_zero.mpr]
    intro d _
    simp
  | cons k ks ih =>
    rw [List.map_cons, List.sum_cons]
    simp only [List.nodup_cons] at hk
    rw [ih hk.2]
    have hcong : l.countP (fun d => (k :: ks).contains d)
        = l.countP (fun d => (d == k) || ks.contains d) := by
      apply List.countP_congr
      intro d _
      simp [List.contains_cons]
    rw [hcong, countP_or_disjoint]
    · rw [List.count]
    · intro d _ ⟨h1, h2⟩
      rw [beq_iff_eq] at h1
      subst h1
      exact hk.1 (List.elem_iff.mp h2)

lemma count_batch_flat (pkgs : List Package) (hnd : (pkgNames pkgs).Nodup)
    (batch : List Package) (hb : ∀ p ∈ batch, p ∈ pkgs)
    (hbn : (pkgNames batch).Nodup)
    (q : Package) (hq : q ∈ pkgs) :
    (batch.flatMap (fun p => dependedByMap pkgs p.name)).count q.name
      = (internalDeps pkgs q).countP (fun d => (pkgNames batch).contains d) := by
  rw [count_flatMap_eq]
  have hcong : batch.map (fun p => (dependedByMap pkgs p.name).count q.name)
      = batch.map (fun p => (internalDeps pkgs q).count p.name) :=
    List.map_congr_left (fun p _ => count_dependedBy pkgs hnd q hq p.name)
  rw [hcong]
  have hmm : batch.map (fun p => (internalDeps pkgs q).count p.name)
      = (pkgNames batch).map (fun k => (internalDeps pkgs q).count k) := by
    rw [pkgNames, List.map_map]
    rfl
  rw [hmm, sum_count_eq_countP _ _ hbn]

lemma countP_split_sub (l : List String) (done bn : List String)
    (hdisj : ∀ d, bn.contains d = true → done.contains d = false) :
    l.countP (fun d => !done.contains d)
      = l.countP (fun d => bn.contains d)
        + l.countP (fun d => !(done ++ bn).contains d) := by
  induction l with
  | nil => rfl
  | cons d l ih =>
    rw [List.countP_cons, List.countP_cons, List.countP_cons, ih]
    have happ : (done ++ bn).contains d = (done.contains d || bn.contains d) := by
      simp [List.contains_eq_any_beq, List.any_append]
    cases hdn : done.contains d <;> cases hbn : bn.contains d <;>
      simp only [happ, hdn, hbn] <;> simp <;> try omega
    · exact absurd (hdisj d hbn) (by rw [hdn]; decide)


lemma chain_append_single {R : String → String → Prop} :
    ∀ (l : List String) (x y : String), List.Chain R x (l ++ [y]) →
      Relation.TransGen R x y := by
  intro l
  induction l with
  | nil =>
    intro x y h
    rw [List.nil_append] at h
    exact Relation.TransGen.single (List.chain_singleton.mp h)
  | cons c l ih =>
    intro x y h
    rw [List.cons_append] at h
    rcases List.chain_cons.mp h with ⟨hxc, hc⟩
    exact Relation.TransGen.head hxc (ih c y hc)

lemma chain_extract_cycle {R : String → String → Prop} :
    ∀ (l1 : List String) (a : String) (l l2 l3 : List String) (x : String),
      a :: l = l1 ++ x :: l2 ++ x :: l3 → List.Chain R a l →
      Relation.TransGen R x x := by
  intro l1
  induction l1 with
  | nil =>
    intro a l l2 l3 x heq hch
    rw [List.nil_append] at heq
    injection heq with h1 h2
    subst h1
    subst h2
    exact chain_append_single _ _ _ (List.chain_split.mp hch).1
  | cons c l1 ih =>
    intro a l l2 l3 x heq hch
    rw [List.cons_append] at heq
    injection heq with h1 h2
    cases l with
    | nil => simp at h2
    | cons b t =>
      subst h1
      rcases List.chain_cons.mp hch with ⟨_, hbt⟩
      exact ih b t l2 l3 x h2 hbt

lemma exists_dup_split :
    ∀ (l : List String), ¬l.Nodup → ∃ x l1 l2 l3, l = l1 ++ x :: l2 ++ x :: l3 := by
  intro l
  induction l with
  | nil => intro h; exact absurd List.nodup_nil h
  | cons a l ih =>
    intro h
    by_cases ha : a ∈ l
    · obtain ⟨s, t, rfl⟩ := List.append_of_mem ha
      exact ⟨a, [], s, t, by simp⟩
    · have hl : ¬l.Nodup := fun hnd => h (List.nodup_cons.mpr ⟨ha, hnd⟩)
      obtain ⟨x, l1, l2, l3, rfl⟩ := ih hl
      exact ⟨x, a :: l1, l2, l3, rfl⟩

lemma chain_build {Step : String → String → Prop} (Rs : List String)
    (hstep : ∀ r ∈ Rs, ∃ r', r' ∈ Rs ∧ Step r r') :
    ∀ (n : Nat) (a : String), a ∈ Rs →
      ∃ l, l.length = n ∧ (∀ x ∈ l, x ∈ Rs) ∧ List.Chain Step a l := by
  intro n
  induction n with
  | zero =>
    intro a _
    exact ⟨[], rfl, by intro x hx; exact absurd hx (List.not_mem_nil x), List.Chain.nil⟩
  | succ n ih =>
    intro a ha
    obtain ⟨b, hb, hab⟩ := hstep a ha
    obtain ⟨l, hlen, hmem, hch⟩ := ih b hb
    refine ⟨b :: l, by simp [hlen], ?_, List.Chain.cons hab hch⟩
    intro x hx
    rcases List.mem_cons.mp hx with h | h
    · exact h ▸ hb
    · exact hmem x h

/-- If every unprocessed package has an unprocessed internal dependency and at
least one package is unprocessed, the restricted graph has a cycle. -/
lemma cycle_of_blocked (pkgs : List Package) (hnd : (pkgNames pkgs).Nodup)
    (done : List String) (hdnd : done.Nodup)
    (hlt : done.length < pkgs.length)
    (hblock : ∀ p ∈ pkgs, done.contains p.name = false →
      ∃ d, d ∈ internalDeps pkgs p ∧ done.contains d = false) :
    HasCycle pkgs := by
  classical
  set Rs : List String := (pkgNames pkgs).filter (fun s => !done.contains s) with hRs
  have hmemRs : ∀ s, s ∈ Rs ↔ s ∈ pkgNames pkgs ∧ done.contains s = false := by
    intro s
    rw [hRs, List.mem_filter]
    constructor
    · rintro ⟨h1, h2⟩
      exact ⟨h1, by revert h2; cases done.contains s <;> simp⟩
    · rintro ⟨h1, h2⟩
      exact ⟨h1, by rw [h2]; rfl⟩
  have hstep : ∀ r ∈ Rs, ∃ r', r' ∈ Rs ∧ DepStep pkgs r r' := by
    intro r hr
    rcases (hmemRs r).mp hr with ⟨hrn, hrd⟩
    obtain ⟨p, hp, hpn⟩ := List.mem_map.mp hrn
    obtain ⟨d, hd, hdd⟩ := hblock p hp (hpn ▸ hrd)
    have hdn : d ∈ pkgNames pkgs := by
      unfold internalDeps at hd
      obtain ⟨dep, hdep, hdepn⟩ := List.mem_map.mp hd
      have := (List.mem_filter.mp hdep).2
      rw [Bool.and_eq_true] at this
      exact hdepn ▸ List.elem_iff.mp this.2
    exact ⟨d, (hmemRs d).mpr ⟨hdn, hdd⟩, ⟨p, hp, hpn, hd⟩⟩
  have hne : ∃ a, a ∈ Rs := by
    by_contra hno
    push_neg at hno
    have hsub : ∀ s ∈ pkgNames pkgs, s ∈ done := by
      intro s hs
      by_cases hc : done.contains s = true
      · exact List.elem_iff.mp hc
      · exact absurd ((hmemRs s).mpr ⟨hs, by revert hc; cases done.contains s <;> simp⟩)
          (hno s)
    have hsp : (pkgNames pkgs).Subperm done := List.Nodup.subperm hnd hsub
    have := List.Subperm.length_le hsp
    rw [pkgNames, List.length_map] at this
    omega
  obtain ⟨a, ha⟩ := hne
  obtain ⟨l, hlen, hmem, hch⟩ := chain_build Rs hstep (Rs.length + 1) a ha
  have hnodup : ¬(a :: l).Nodup := by
    intro hnd2
    have hsub : ∀ x ∈ a :: l, x ∈ Rs := by
      intro x hx
      rcases List.mem_cons.mp hx with h | h
      · exact h ▸ ha
      · exact hmem x h
    have := List.Subperm.length_le (List.Nodup.subperm hnd2 hsub)
    rw [List.length_cons, hlen] at this
    omega
  obtain ⟨x, l1, l2, l3, heq⟩ := exists_dup_split (a :: l) hnodup
  exact ⟨x, chain_extract_cycle l1 a l l2 l3 x heq hch⟩


lemma kahnAux_succ (pkgs : List Package) (dep : String → List String) (f : Nat)
    (inDeg : String → Int) (processed : Nat) :
    kahnAux pkgs dep (f + 1) inDeg processed =
      if processed < pkgs.length then
        (if (collectBatch pkgs inDeg).1.length = 0 then
          Except.error "Circular dependency detected"
        else
          match kahnAux pkgs dep f
              (decBatch dep (collectBatch pkgs inDeg).1 (collectBatch pkgs inDeg).2)
              (processed + (collectBatch pkgs inDeg).1.length) with
          | .ok batches => .ok ((collectBatch pkgs inDeg).1 :: batches)
          | .error e => .error e)
      else .ok [] := rfl

lemma filter_done_all (pkgs : List Package) (hnd : (pkgNames pkgs).Nodup)
    (done : List String) (hdnd : done.Nodup) (hdsub : ∀ s ∈ done, s ∈ pkgNames pkgs)
    (hge : pkgs.length ≤ done.length) :
    pkgs.filter (fun p => !done.contains p.name) = [] := by
  have hsp : done.Subperm (pkgNames pkgs) := List.Nodup.subperm hdnd hdsub
  have hperm : done.Perm (pkgNames pkgs) := by
    apply List.Subperm.perm_of_length_le hsp
    rw [pkgNames, List.length_map]
    exact hge
  apply List.filter_eq_nil_iff.mpr
  intro p hp
  have hmem : p.name ∈ done := hperm.mem_iff.mpr (List.mem_map_of_mem _ hp)
  have hc : done.contains p.name = true := List.elem_iff.mpr hmem
  rw [hc]
  simp

lemma kahn_main (pkgs : List Package) (hnd : (pkgNames pkgs).Nodup) :
    ∀ (fuel : Nat) (done : List String) (inDeg : String → Int),
      done.Nodup → (∀ s ∈ done, s ∈ pkgNames pkgs) →
      IdegOK pkgs done inDeg →
      pkgs.length - done.length ≤ fuel →
      (∃ batches,
        kahnAux pkgs (dependedByMap pkgs) fuel inDeg done.length = .ok batches ∧
        List.Perm batches.flatten (pkgs.filter (fun p => !done.contains p.name)) ∧
        OrderedFrom pkgs done batches)
      ∨ (kahnAux pkgs (dependedByMap pkgs) fuel inDeg done.length =
          .error "Circular dependency detected" ∧ HasCycle pkgs) := by
  intro fuel
  induction fuel with
  | zero =>
    intro done inDeg hdnd hdsub hinv hfuel
    left
    refine ⟨[], rfl, ?_, ?_⟩
    · rw [filter_done_all pkgs hnd done hdnd hdsub (by omega)]
      exact List.Perm.nil
    · intro i hi
      exact absurd hi (Nat.not_lt_zero i)
  | succ f ih =>
    intro done inDeg hdnd hdsub hinv hfuel
    by_cases hlt : done.length < pkgs.length
    case neg =>
      left
      refine ⟨[], ?_, ?_, ?_⟩
      · rw [kahnAux_succ, if_neg hlt]
      · rw [filter_done_all pkgs hnd done hdnd hdsub (by omega)]
        exact List.Perm.nil
      · intro i hi
        exact absurd hi (Nat.not_lt_zero i)
    case pos =>
      have hstep := kahnAux_succ pkgs (dependedByMap pkgs) f inDeg done.length
      rw [if_pos hlt, collectBatch_fst pkgs inDeg hnd] at hstep
      set Bf := pkgs.filter (fun p => inDeg p.name == 0) with hBf
      have hmemB : ∀ p, p ∈ Bf ↔ p ∈ pkgs ∧ inDeg p.name = 0 := by
        intro p
        rw [hBf, List.mem_filter, beq_iff_eq]
      have hBsub : ∀ p ∈ Bf, p ∈ pkgs := fun p hp => ((hmemB p).mp hp).1
      have hBdone : ∀ p ∈ Bf, done.contains p.name = false := by
        intro p hp
        rcases (hmemB p).mp hp with ⟨hpp, hp0⟩
        have hIp := hinv p hpp
        by_cases hc : done.contains p.name = true
        · rw [if_pos hc] at hIp
          rw [hp0] at hIp
          exact absurd hIp (by decide)
        · exact Bool.eq_false_iff.mpr hc
      have hBzero : ∀ p ∈ Bf,
          (internalDeps pkgs p).countP (fun d => !done.contains d) = 0 := by
        intro p hp
        rcases (hmemB p).mp hp with ⟨hpp, hp0⟩
        have hIp := hinv p hpp
        rw [if_neg (by rw [hBdone p hp]; exact Bool.false_ne_true)] at hIp
        rw [hp0] at hIp
        exact_mod_cast hIp.symm
      by_cases hBe : Bf.length = 0
      · right
        have hBnil : Bf = [] := List.length_eq_zero.mp hBe
        constructor
        · rw [hstep, if_pos hBe]
        · apply cycle_of_blocked pkgs hnd done hdnd hlt
          intro p hp hpd
          have hIp := hinv p hp
          rw [if_neg (by rw [hpd]; exact Bool.false_ne_true)] at hIp
          have hne : inDeg p.name ≠ 0 := by
            intro h0
            have hin : p ∈ Bf := (hmemB p).mpr ⟨hp, h0⟩
            rw [hBnil] at hin
            exact absurd hin (List.not_mem_nil p)
          have hcne : (internalDeps pkgs p).countP (fun d => !done.contains d) ≠ 0 := by
            intro h0
            rw [h0] at hIp
            exact hne (by rw [hIp]; rfl)
          by_contra hno
          push_neg at hno
          apply hcne
          rw [List.countP_eq_zero]
          intro d hd
          have hdc := hno d hd
          have hdc2 : done.contains d = true := by
            cases h : done.contains d
            · exact absurd h hdc
            · rfl
          rw [hdc2]
          simp
      · -- non-empty batch: recurse
        have hanyiff : ∀ p, p ∈ pkgs →
            (Bf.any (fun q => q.name == p.name) = true ↔ p ∈ Bf) := by
          intro p hp
          constructor
          · intro h
            obtain ⟨q, hq, hqn⟩ := List.any_eq_true.mp h
            rw [beq_iff_eq] at hqn
            exact (name_inj pkgs hnd (hBsub q hq) hp hqn) ▸ hq
          · intro h
            exact List.any_eq_true.mpr ⟨p, h, beq_self_eq_true _⟩
        have hBnd : (pkgNames Bf).Nodup := by
          rw [hBf, pkgNames]
          exact List.Nodup.sublist (List.Sublist.map _ (List.filter_sublist pkgs)) hnd
        have hdisjBdone : ∀ s, (pkgNames Bf).contains s = true →
            done.contains s = false := by
          intro s hs
          obtain ⟨q, hq, hqn⟩ := List.mem_map.mp (List.elem_iff.mp hs)
          exact hqn ▸ hBdone q hq
        set done' := done ++ pkgNames Bf with hdone'
        have hd'nd : done'.Nodup := by
          rw [hdone']
          apply List.nodup_append.mpr
          refine ⟨hdnd, hBnd, ?_⟩
          intro a ha hab
          have h1 : (pkgNames Bf).contains a = true := List.elem_iff.mpr hab
          have h2 := hdisjBdone a h1
          have h3 : done.contains a = true := List.elem_iff.mpr ha
          rw [h3] at h2
          exact Bool.noConfusion h2
        have hd'sub : ∀ s ∈ done', s ∈ pkgNames pkgs := by
          intro s hs
          rcases List.mem_append.mp hs with h | h
          · exact hdsub s h
          · obtain ⟨q, hq, hqn⟩ := List.mem_map.mp h
            exact hqn ▸ List.mem_map_of_mem _ (hBsub q hq)
        have hd'len : done'.length = done.length + Bf.length := by
          rw [hdone', List.length_append, pkgNames, List.length_map]
        set inDeg' := decBatch (dependedByMap pkgs) Bf (collectBatch pkgs inDeg).2
          with hID
        have hM : ∀ s, (collectBatch pkgs inDeg).2 s
            = if Bf.any (fun p => p.name == s) then -1 else inDeg s := by
          intro s
          rw [collectBatch_snd pkgs inDeg hnd s, ← hBf]
        have hd'c : ∀ s, done'.contains s
            = (done.contains s || (pkgNames Bf).contains s) := by
          intro s
          rw [hdone']
          simp [List.contains_eq_any_beq, List.any_append]
        have hinv' : IdegOK pkgs done' inDeg' := by
          intro p hp
          have hIp := hinv p hp
          by_cases hc1 : done.contains p.name = true
          · have hfalse : Bf.any (fun q => q.name == p.name) = false := by
              by_cases h : Bf.any (fun q => q.name == p.name) = true
              · have hin := (hanyiff p hp).mp h
                have := hBdone p hin
                rw [hc1] at this
                exact Bool.noConfusion this
              · exact Bool.eq_false_iff.mpr h
            rw [if_pos hc1] at hIp
            have hMp : (collectBatch pkgs inDeg).2 p.name = -1 := by
              rw [hM p.name, hfalse, hIp]
              simp
            have hval : inDeg' p.name = -1 := by
              rw [hID, decBatch_eval, hMp]
              norm_num
            rw [hval, if_pos (by rw [hd'c, hc1]; rfl)]
          · have hc1f : done.contains p.name = false := Bool.eq_false_iff.mpr hc1
            by_cases hc2 : p ∈ Bf
            · have htrue : Bf.any (fun q => q.name == p.name) = true :=
                (hanyiff p hp).mpr hc2
              have hMp : (collectBatch pkgs inDeg).2 p.name = -1 := by
                rw [hM p.name, htrue]
                rfl
              have hval : inDeg' p.name = -1 := by
                rw [hID, decBatch_eval, hMp]
                norm_num
              have hin : done'.contains p.name = true := by
                have hmm : (pkgNames Bf).contains p.name = true :=
                  List.elem_iff.mpr (List.mem_map_of_mem _ hc2)
                rw [hd'c, hc1f, hmm]
                rfl
              rw [hval, if_pos hin]
            · have hfalse : Bf.any (fun q => q.name == p.name) = false := by
                by_cases h : Bf.any (fun q => q.name == p.name) = true
                · exact absurd ((hanyiff p hp).mp h) hc2
                · exact Bool.eq_false_iff.mpr h
              have hcontf : (pkgNames Bf).contains p.name = false := by
                rw [contains_pkgNames, hfalse]
              have hd'f : done'.contains p.name = false := by
                rw [hd'c, hc1f, hcontf]
                rfl
              have hMp : (collectBatch pkgs inDeg).2 p.name = inDeg p.name := by
                rw [hM p.name, hfalse]
                simp
              rw [if_neg (by rw [hc1f]; exact Bool.false_ne_true)] at hIp
              have hne0 : inDeg p.name ≠ 0 := by
                intro h0
                exact hc2 ((hmemB p).mpr ⟨hp, h0⟩)
              set cN := (internalDeps pkgs p).countP (fun d => !done.contains d)
                with hcN
              set cB := (internalDeps pkgs p).countP
                (fun d => (pkgNames Bf).contains d) with hcB
              set cR := (internalDeps pkgs p).countP
                (fun d => !done'.contains d) with hcR
              have hsplit : cN = cB + cR := by
                rw [hcN, hcB, hcR, hdone']
                exact countP_split_sub _ done (pkgNames Bf) hdisjBdone
              have hcount : (Bf.flatMap
                  (fun r => dependedByMap pkgs r.name)).count p.name = cB :=
                count_batch_flat pkgs hnd Bf hBsub hBnd p hp
              have hposN : 0 < cN := by
                rcases Nat.eq_zero_or_pos cN with h0 | h0
                · rw [h0] at hIp
                  exact absurd (by rw [hIp]; rfl) hne0
                · exact h0
              have hval : inDeg' p.name = (cR : Int) := by
                rw [hID, decBatch_eval, hMp, hIp, hcount]
                rw [if_pos (by exact_mod_cast hposN)]
                rw [if_pos (by exact_mod_cast (by omega : cB ≤ cN))]
                push_cast
                omega
              rw [hval, if_neg (by rw [hd'f]; exact Bool.false_ne_true)]
        have hfuel' : pkgs.length - done'.length ≤ f := by
          rw [hd'len]
          omega
        have ihres := ih done' inDeg' hd'nd hd'sub hinv' hfuel'
        rw [hd'len] at ihres
        rw [if_neg hBe] at hstep
        rcases ihres with ⟨bs, hok, hperm, hord⟩ | ⟨herr, hcyc⟩
        · left
          rw [hok] at hstep
          have hstep' : kahnAux pkgs (dependedByMap pkgs) (f + 1) inDeg done.length
              = .ok (Bf :: bs) := hstep
          refine ⟨Bf :: bs, hstep', ?_, ?_⟩
          · -- permutation
            rw [List.flatten_cons]
            have h1 := List.filter_append_perm (fun p => inDeg p.name == 0)
              (pkgs.filter (fun p => !done.contains p.name))
            have h2 : (pkgs.filter (fun p => !done.contains p.name)).filter
                (fun p => inDeg p.name == 0) = Bf := by
              rw [List.filter_filter, hBf]
              apply List.filter_congr
              intro p hp
              by_cases h : inDeg p.name = 0
              · have hc := hBdone p ((hmemB p).mpr ⟨hp, h⟩)
                rw [beq_iff_eq.mpr h, hc]
                rfl
              · rw [beq_eq_false_iff_ne.mpr h]
                simp
            have h3 : (pkgs.filter (fun p => !done.contains p.name)).filter
                (fun p => !(inDeg p.name == 0))
                = pkgs.filter (fun p => !done'.contains p.name) := by
              rw [List.filter_filter]
              apply List.filter_congr
              intro p hp
              rw [hd'c, contains_pkgNames]
              by_cases hdc : done.contains p.name = true
              · rw [hdc]
                simp
              · have hdcf : done.contains p.name = false := Bool.eq_false_iff.mpr hdc
                rw [hdcf]
                by_cases h : inDeg p.name = 0
                · have htrue : Bf.any (fun q => q.name == p.name) = true :=
                    (hanyiff p hp).mpr ((hmemB p).mpr ⟨hp, h⟩)
                  rw [beq_iff_eq.mpr h, htrue]
                  rfl
                · have hfalse : Bf.any (fun q => q.name == p.name) = false := by
                    by_cases hh : Bf.any (fun q => q.name == p.name) = true
                    · exact absurd (((hmemB p).mp ((hanyiff p hp).mp hh)).2) h
                    · exact Bool.eq_false_iff.mpr hh
                  rw [beq_eq_false_iff_ne.mpr h, hfalse]
                  rfl
            rw [h2, h3] at h1
            exact (hperm.append_left Bf).trans h1
          · -- ordering
            intro i hi p hp d hd
            cases i with
            | zero =>
              left
              have h0 := hBzero p hp
              rw [List.countP_eq_zero] at h0
              have hdc := h0 d hd
              have hdc2 : done.contains d = true := by
                cases h : done.contains d
                · exact absurd (by rw [h]; rfl) hdc
                · rfl
              exact List.elem_iff.mp hdc2
            | succ i =>
              have hi' : i < bs.length := by
                rw [List.length_cons] at hi
                omega
              have hp' : p ∈ bs.get ⟨i, hi'⟩ := hp
              rcases hord i hi' p hp' d hd with hdone | ⟨j, hj, hji, q, hq, hqn⟩
              · rcases List.mem_append.mp hdone with h | h
                · exact Or.inl h
                · obtain ⟨q, hq, hqn⟩ := List.mem_map.mp h
                  right
                  exact ⟨0, by simp, Nat.succ_pos i, q, hq, hqn⟩
              · right
                refine ⟨j + 1, by rw [List.length_cons]; omega, by omega, q, hq, hqn⟩
        · right
          rw [herr] at hstep
          have hstep' : kahnAux pkgs (dependedByMap pkgs) (f + 1) inDeg done.length
              = .error "Circular dependency detected" := hstep
          exact ⟨hstep', hcyc⟩


lemma find_self (pkgs : List Package) (hnd : (pkgNames pkgs).Nodup)
    (p : Package) (hp : p ∈ pkgs) :
    pkgs.find? (fun q => q.name == p.name) = some p := by
  induction pkgs with
  | nil => exact absurd hp (List.not_mem_nil p)
  | cons r l ih =>
    simp only [pkgNames, List.map_cons, List.nodup_cons] at hnd
    rcases List.mem_cons.mp hp with h | h
    · subst h
      exact List.find?_cons_of_pos l
        (show (fun q => q.name == p.name) p = true from beq_self_eq_true _)
    · have hrp : (r.name == p.name) = false := beq_eq_false_iff_ne.mpr
        (fun hco => hnd.1 (hco ▸ List.mem_map_of_mem _ h))
      rw [List.find?_cons_of_neg _ (by rw [hrp]; exact Bool.false_ne_true)]
      exact ih hnd.2 h

lemma inDeg0_invariant (pkgs : List Package) (hnd : (pkgNames pkgs).Nodup) :
    IdegOK pkgs [] (inDeg0 pkgs) := by
  intro p hp
  unfold inDeg0
  rw [find_self pkgs hnd p hp]
  show ((internalDeps pkgs p).length : Int) = _
  rw [show ([] : List String).contains p.name = false from rfl,
    if_neg Bool.false_ne_true]
  congr 1
  have hfun : (fun d => !([] : List String).contains d) = (fun _ : String => true) :=
    funext (fun _ => rfl)
  rw [hfun, List.countP_true]

lemma kahn_run0 (pkgs : List Package) (hnd : (pkgNames pkgs).Nodup) :
    (∃ batches, resolveExecutionBatches pkgs = .ok batches ∧
      List.Perm batches.flatten pkgs ∧ OrderedFrom pkgs [] batches)
    ∨ (resolveExecutionBatches pkgs = .error "Circular dependency detected" ∧
       HasCycle pkgs) := by
  have h := kahn_main pkgs hnd pkgs.length [] (inDeg0 pkgs) List.nodup_nil
    (by intro s hs; exact absurd hs (List.not_mem_nil s))
    (inDeg0_invariant pkgs hnd) (by simp)
  have hfilter : pkgs.filter (fun p => !([] : List String).contains p.name) = pkgs :=
    List.filter_eq_self.mpr (fun a _ => rfl)
  rw [show ([] : List String).length = 0 from rfl, hfilter] at h
  exact h

/-- A strictly decreasing rank witnesses acyclicity of the restricted graph. -/
lemma acyclic_of_rank (pkgs : List Package) (rank : String → Nat)
    (h : ∀ p ∈ pkgs, ∀ d ∈ internalDeps pkgs p, rank d < rank p.name) :
    ¬HasCycle pkgs := by
  rintro ⟨a, hT⟩
  have hstep : ∀ x y, DepStep pkgs x y → rank y < rank x := by
    rintro x y ⟨p, hp, rfl, hd⟩
    exact h p hp y hd
  have hlt : ∀ x y, Relation.TransGen (DepStep pkgs) x y → rank y < rank x := by
    intro x y hxy
    induction hxy with
    | single h1 => exact hstep _ _ h1
    | tail _ h2 ih => exact Nat.lt_trans (hstep _ _ h2) ih
  exact Nat.lt_irrefl _ (hlt a a hT)

lemma findIdx_batch :
    ∀ (batches : List (List Package)) (x : String) (i : Nat) (hi : i < batches.length),
      (pkgNames batches.flatten).Nodup →
      (batches.get ⟨i, hi⟩).any (fun q => q.name == x) = true →
      batches.findIdx (fun b => b.any (fun q => q.name == x)) = i := by
  intro batches
  induction batches with
  | nil =>
    intro x i hi
    exact absurd hi (Nat.not_lt_zero i)
  | cons b bs ih =>
    intro x i hi hndf hany
    cases i with
    | zero =>
      have hb : b.any (fun q => q.name == x) = true := hany
      rw [List.findIdx_cons, hb]
      rfl
    | succ i =>
      have hi' : i < bs.length := by
        rw [List.length_cons] at hi
        omega
      have hany' : (bs.get ⟨i, hi'⟩).any (fun q => q.name == x) = true := hany
      have hxtail : x ∈ pkgNames bs.flatten := by
        obtain ⟨q, hq, hqn⟩ := List.any_eq_true.mp hany'
        rw [beq_iff_eq] at hqn
        exact hqn ▸ List.mem_map_of_mem _
          (List.mem_flatten.mpr ⟨bs.get ⟨i, hi'⟩, List.get_mem bs _ _, hq⟩)
      have hndsplit : (pkgNames b).Disjoint (pkgNames bs.flatten) ∧
          (pkgNames bs.flatten).Nodup := by
        have : pkgNames ((b :: bs).flatten) = pkgNames b ++ pkgNames bs.flatten := by
          rw [List.flatten_cons, pkgNames, pkgNames, pkgNames, List.map_append]
        rw [this] at hndf
        rcases List.nodup_append.mp hndf with ⟨_, h2, h3⟩
        exact ⟨h3, h2⟩
      have hbfalse : b.any (fun q => q.name == x) = false := by
        by_cases hh : b.any (fun q => q.name == x) = true
        · obtain ⟨q, hq, hqn⟩ := List.any_eq_true.mp hh
          rw [beq_iff_eq] at hqn
          exact absurd hxtail (hndsplit.1 (hqn ▸ List.mem_map_of_mem _ hq))
        · exact Bool.eq_false_iff.mpr hh
      rw [List.findIdx_cons, hbfalse]
      have := ih x i hi' hndsplit.2 hany'
      simp [this]

/-- A batch plan that is a permutation of the set and respects the ordering
invariant rules out any dependency cycle. -/
lemma plan_no_cycle (pkgs : List Package) (batches : List (List Package))
    (hperm : List.Perm batches.flatten pkgs) (hnd : (pkgNames pkgs).Nodup)
    (hord : OrderedFrom pkgs [] batches) : ¬HasCycle pkgs := by
  rintro ⟨a, hT⟩
  have hndf : (pkgNames batches.flatten).Nodup := by
    have hpm : List.Perm (pkgNames batches.flatten) (pkgNames pkgs) :=
      hperm.map Package.name
    exact (hpm.nodup_iff).mpr hnd
  have hdec : ∀ x y, DepStep pkgs x y →
      batches.findIdx (fun b => b.any (fun q => q.name == y)) <
      batches.findIdx (fun b => b.any (fun q => q.name == x)) := by
    rintro x y ⟨p, hp, rfl, hd⟩
    have hpf : p ∈ batches.flatten := hperm.mem_iff.mpr hp
    obtain ⟨b, hb, hpb⟩ := List.mem_flatten.mp hpf
    obtain ⟨⟨i, hi⟩, hget⟩ := List.get_of_mem hb
    rw [← hget] at hpb
    rcases hord i hi p hpb y hd with h | ⟨j, hj, hji, q, hq, hqn⟩
    · exact absurd h (List.not_mem_nil y)
    · have hix : batches.findIdx (fun b => b.any (fun q => q.name == p.name)) = i :=
        findIdx_batch batches p.name i hi hndf
          (List.any_eq_true.mpr ⟨p, hpb, beq_self_eq_true _⟩)
      have hjy : batches.findIdx (fun b => b.any (fun q => q.name == y)) = j :=
        findIdx_batch batches y j hj hndf
          (List.any_eq_true.mpr ⟨q, hq, by rw [hqn]; exact beq_self_eq_true _⟩)
      rw [hix, hjy]
      exact hji
  have hlt : ∀ x y, Relation.TransGen (DepStep pkgs) x y →
      batches.findIdx (fun b => b.any (fun q => q.name == y)) <
      batches.findIdx (fun b => b.any (fun q => q.name == x)) := by
    intro x y hxy
    induction hxy with
    | single h1 => exact hdec _ _ h1
    | tail _ h2 ih => exact Nat.lt_trans (hdec _ _ h2) ih
  exact Nat.lt_irrefl _ (hlt a a hT)

/-- C1: for every package set with duplicate-free names whose internal
workspace-dependency graph (restricted to the set) is acyclic,
`resolveExecutionBatches` returns a batch plan whose concatenation is a
permutation of the input set (so every package appears exactly once, batches
are disjoint, none dropped or duplicated), and every internal dependency of a
batch-`i` member is provided by some batch with index strictly less than
`i`. -/
theorem claim1_scheduler_sound (pkgs : List Package)
    (hnd : (pkgNames pkgs).Nodup) (hacyc : ¬HasCycle pkgs) :
    ∃ batches, resolveExecutionBatches pkgs = .ok batches ∧
      List.Perm batches.flatten pkgs ∧
      ∀ (i : Nat) (hi : i < batches.length), ∀ p ∈ batches.get ⟨i, hi⟩,
        ∀ d ∈ internalDeps pkgs p, ∃ j, ∃ hj : j < batches.length, j < i ∧
          ∃ q ∈ batches.get ⟨j, hj⟩, q.name = d := by
  rcases kahn_run0 pkgs hnd with ⟨batches, hok, hperm, hord⟩ | ⟨_, hcyc⟩
  · refine ⟨batches, hok, hperm, ?_⟩
    intro i hi p hp d hd
    rcases hord i hi p hp d hd with h | h
    · exact absurd h (List.not_mem_nil d)
    · exact h
  · exact absurd hcyc hacyc

/-- Witness for C1 on the spec scenario (`app` depends on `core` and `utils`):
the name list is duplicate-free, the rank `app` is 1/others 0 certifies
acyclicity, and the scheduler returns a plan. -/
theorem claim1_scheduler_sound_witness :
    (resolveExecutionBatches scenarioAll).toOption.isSome = true := by
  obtain ⟨batches, hok, -, -⟩ := claim1_scheduler_sound scenarioAll (by decide)
    (acyclic_of_rank scenarioAll (fun s => if s = "app" then 1 else 0) (by decide))
  rw [hok]
  rfl

/-- C2: for every package set with duplicate-free names whose internal
workspace-dependency graph contains a cycle, `resolveExecutionBatches` throws
`Circular dependency detected` — an `Except.error`, so no partial batch plan
is returned and the caller never reaches the publish stage. -/
theorem claim2_cycle_error (pkgs : List Package)
    (hnd : (pkgNames pkgs).Nodup) (hcyc : HasCycle pkgs) :
    resolveExecutionBatches pkgs = .error "Circular dependency detected" := by
  rcases kahn_run0 pkgs hnd with ⟨batches, _, hperm, hord⟩ | ⟨herr, _⟩
  · exact absurd hcyc (plan_no_cycle pkgs batches hperm hnd hord)
  · exact herr

/-- Witness for C2: the two-package cycle `a -> b -> a` makes the scheduler
throw. -/
theorem claim2_cycle_error_witness :
    resolveExecutionBatches [cycPkgA, cycPkgB] = .error "Circular dependency detected" :=
  claim2_cycle_error [cycPkgA, cycPkgB] (by decide)
    ⟨"a", Relation.TransGen.head
      ⟨cycPkgA, by decide, rfl, by decide⟩
      (Relation.TransGen.single ⟨cycPkgB, by decide, rfl, by decide⟩)⟩

end NpmPublish
